import Mathlib

set_option maxRecDepth 4000

/-!
Shallow embedding of the sync, identifier-generation and search core of the
better-productive Cloudflare worker (src/src/index.js).

Modelling conventions, used throughout:
- JavaScript strings are Lean String values (code points standing in for
  UTF-16 code units; every string the code manipulates structurally is
  ASCII, where the two agree).
- JavaScript numbers that the code treats as integers (task ids, ticket
  numbers, page numbers, HTTP status codes) are Nat; String(n) and template
  interpolation of such a number are decRepr.
- An absent, undefined or null field is Option.none.
- A JS Map, and a plain object used as a dictionary, is an association list
  in insertion order with update-in-place semantics (jsMapSet, lookupKey);
  a JS Set is a duplicate-free list in insertion order (jsSetAdd).
- The JS truthiness chain (a or-else b) on strings is jsOrS: undefined and
  the empty string fall through.
- name.localeCompare ordering is modelled by the code-point order on String;
  Array.prototype.sort, which ECMAScript requires to be stable, is modelled
  by the stable insertion sort jsSortBy.
- Effects: network responses are inputs (a function from page number to the
  page response), the KV writes of a sync are the fields of the returned
  Snapshot, and a thrown Error is the Except.error case, so an error result
  is a pass in which no snapshot blob is written.
-/

namespace BetterProductive

/-- JS truthiness chain for strings, as in (a || b): undefined (none) and
the empty string fall through to the alternative. -/
def jsOrS : Option String → String → String
  | some s, d => if s = "" then d else s
  | none, d => d

/-- Lookup in an association list modelling a JS Map or dictionary object. -/
def lookupKey {κ α : Type} [DecidableEq κ] (m : List (κ × α)) (k : κ) : Option α :=
  match m with
  | [] => none
  | (k₁, v) :: t => if k₁ = k then some v else lookupKey t k

/-- JS Map.has / (key in object). -/
def containsKey {κ α : Type} [DecidableEq κ] (m : List (κ × α)) (k : κ) : Bool :=
  (lookupKey m k).isSome

/-- JS Map.set and object assignment: update the value in place (keeping
insertion order) or append a fresh entry. -/
def jsMapSet {κ α : Type} [DecidableEq κ] (m : List (κ × α)) (k : κ) (v : α) : List (κ × α) :=
  match m with
  | [] => [(k, v)]
  | (k₁, v₁) :: t => if k₁ = k then (k, v) :: t else (k₁, v₁) :: jsMapSet t k v

/-- JS Set.add: append the element if it is not yet present. -/
def jsSetAdd (s : List String) (x : String) : List String :=
  if s.contains x then s else s ++ [x]

/-- Lookup through a possibly undefined key, as in m[k] where k may be
undefined (such a lookup yields undefined in the code). -/
def lookupOptKey {α : Type} (m : List (String × α)) (k : Option String) : Option α :=
  match k with
  | none => none
  | some k₁ => lookupKey m k₁

/-- Lookup whose found value is then used under JS truthiness, as in
(if (projectId) ...) after projectId = index[p]: an empty-string value
behaves like an absent one. -/
def lookupTruthy (m : List (String × String)) (k : String) : Option String :=
  match lookupKey m k with
  | some "" => none
  | r => r

/-- Stable insertion of one element: the new element goes after every
element that compares less-or-equal, which makes the fold below a stable
sort, agreeing with Array.prototype.sort. -/
def insertLe {α : Type} (le : α → α → Bool) (a : α) : List α → List α
  | [] => [a]
  | b :: t => if le b a then b :: insertLe le a t else a :: b :: t

/-- Stable sort modelling Array.prototype.sort with a total comparator. -/
def jsSortBy {α : Type} (le : α → α → Bool) (l : List α) : List α :=
  l.foldl (fun acc a => insertLe le a acc) []

/-- One decimal digit character. -/
def digitChar10 (n : Nat) : Char := Char.ofNat (48 + n)

/-- Decimal digit characters of n, most significant first; the fuel only
drives termination and any fuel above n is enough. -/
def decChars : Nat → Nat → List Char
  | 0, _ => []
  | fuel + 1, n =>
    if n < 10 then [digitChar10 n]
    else decChars fuel (n / 10) ++ [digitChar10 (n % 10)]

/-- JS String(n) and template interpolation for a nonnegative integer. -/
def decRepr (n : Nat) : String := String.mk (decChars (n + 1) n)

/-- parseInt on a string of decimal digit characters. -/
def digitsToNat (l : List Char) : Nat :=
  l.foldl (fun a c => a * 10 + (c.toNat - 48)) 0

/-- Lexicographic (code unit) comparison of character lists: the order JS
uses for its default string comparison and the model of localeCompare. -/
def charsLe : List Char → List Char → Bool
  | [], _ => true
  | _ :: _, [] => false
  | c :: t, d :: u =>
    if c.toNat < d.toNat then true
    else if d.toNat < c.toNat then false
    else charsLe t u

/-- String comparison (a <= b) by code units. -/
def strLe (a b : String) : Bool := charsLe a.data b.data

/-- JS String.prototype.trim: strip leading and trailing whitespace. -/
def jsTrim (s : String) : String :=
  String.mk (((s.data.dropWhile Char.isWhitespace).reverse.dropWhile
    Char.isWhitespace).reverse)

/-- JS String.prototype.toLowerCase (basic latin letters). -/
def jsToLower (s : String) : String := String.mk (s.data.map Char.toLower)

/-- JS String.prototype.toUpperCase (basic latin letters). -/
def jsToUpper (s : String) : String := String.mk (s.data.map Char.toUpper)

/-- JS String.prototype.includes: substring containment. -/
def strIncludes (s q : String) : Bool :=
  s.data.tails.any (fun t => q.data.isPrefixOf t)

end BetterProductive

namespace BetterProductive

theorem char_isDigit_iff (c : Char) :
    c.isDigit = true ↔ 48 ≤ c.toNat ∧ c.toNat ≤ 57 := by
  simp only [Char.isDigit, Bool.and_eq_true, decide_eq_true_eq,
    UInt32.le_def, BitVec.le_def,
    show (UInt32.toBitVec 48).toNat = 48 from rfl,
    show (UInt32.toBitVec 57).toNat = 57 from rfl]
  exact Iff.rfl

theorem char_isAlpha_iff (c : Char) :
    c.isAlpha = true ↔ (65 ≤ c.toNat ∧ c.toNat ≤ 90) ∨ (97 ≤ c.toNat ∧ c.toNat ≤ 122) := by
  simp only [Char.isAlpha, Char.isUpper, Char.isLower, Bool.or_eq_true,
    Bool.and_eq_true, decide_eq_true_eq, UInt32.le_def, BitVec.le_def,
    show (UInt32.toBitVec 65).toNat = 65 from rfl,
    show (UInt32.toBitVec 90).toNat = 90 from rfl,
    show (UInt32.toBitVec 97).toNat = 97 from rfl,
    show (UInt32.toBitVec 122).toNat = 122 from rfl]
  exact Iff.rfl

theorem isAlpha_toUpper_not_isDigit (c : Char) (h : c.isAlpha = true) :
    (Char.toUpper c).isDigit = false := by
  unfold Char.toUpper
  by_cases h97 : c.toNat ≥ 97 ∧ c.toNat ≤ 122
  · rw [if_pos h97]
    obtain ⟨h1, h2⟩ := h97
    generalize hm : c.toNat - 32 = m
    have h3 : 65 ≤ m := by omega
    have h4 : m ≤ 90 := by omega
    interval_cases m <;> decide
  · rw [if_neg h97]
    rw [char_isAlpha_iff] at h
    rcases Bool.eq_false_or_eq_true c.isDigit with hd | hd
    · rw [char_isDigit_iff] at hd
      omega
    · exact hd

theorem toNat_digitChar10 {n : Nat} (h : n < 10) : (digitChar10 n).toNat = 48 + n := by
  interval_cases n <;> decide

theorem isDigit_digitChar10 {n : Nat} (h : n < 10) : (digitChar10 n).isDigit = true := by
  interval_cases n <;> decide

theorem digitChar10_ne_zero {n : Nat} (h0 : 0 < n) (h : n < 10) : digitChar10 n ≠ '0' := by
  interval_cases n <;> decide

theorem decChars_ne_nil {fuel n : Nat} (h : n < fuel) : decChars fuel n ≠ [] := by
  cases fuel with
  | zero => omega
  | succ fuel =>
    rw [decChars]
    by_cases h10 : n < 10
    · simp [h10]
    · simp [h10]

theorem evalDigits_decChars : ∀ fuel n, n < fuel →
    digitsToNat (decChars fuel n) = n := by
  intro fuel
  induction fuel with
  | zero => omega
  | succ fuel ih =>
    intro n hn
    rw [decChars]
    by_cases h10 : n < 10
    · rw [if_pos h10]
      simp [digitsToNat, toNat_digitChar10 h10]
    · rw [if_neg h10]
      have hd : n / 10 < fuel := by
        have h1 : n / 10 < n := Nat.div_lt_self (by omega) (by norm_num)
        omega
      have hmod : n % 10 < 10 := Nat.mod_lt _ (by norm_num)
      simp only [digitsToNat, List.foldl_append]
      have := ih (n / 10) hd
      simp only [digitsToNat] at this
      rw [this, List.foldl_cons, List.foldl_nil, toNat_digitChar10 hmod]
      omega

theorem decRepr_inj {m n : Nat} (h : decRepr m = decRepr n) : m = n := by
  have hm : digitsToNat (decChars (m + 1) m) = m := evalDigits_decChars _ _ (by omega)
  have hn : digitsToNat (decChars (n + 1) n) = n := evalDigits_decChars _ _ (by omega)
  have hdata : decChars (m + 1) m = decChars (n + 1) n := by
    have := congrArg String.data h
    simpa [decRepr] using this
  rw [hdata] at hm
  omega

theorem decChars_all_digits : ∀ fuel n, n < fuel →
    ∀ c ∈ decChars fuel n, c.isDigit = true := by
  intro fuel
  induction fuel with
  | zero => omega
  | succ fuel ih =>
    intro n hn c hc
    rw [decChars] at hc
    by_cases h10 : n < 10
    · rw [if_pos h10] at hc
      simp only [List.mem_singleton] at hc
      subst hc
      exact isDigit_digitChar10 h10
    · rw [if_neg h10] at hc
      have hd : n / 10 < fuel := by
        have h1 : n / 10 < n := Nat.div_lt_self (by omega) (by norm_num)
        omega
      rcases List.mem_append.mp hc with hc | hc
      · exact ih _ hd c hc
      · simp only [List.mem_singleton] at hc
        subst hc
        exact isDigit_digitChar10 (Nat.mod_lt _ (by norm_num))

theorem decRepr_all_digits (n : Nat) : ∀ c ∈ (decRepr n).data, c.isDigit = true := by
  intro c hc
  exact decChars_all_digits (n + 1) n (by omega) c hc

theorem decRepr_ne_empty (n : Nat) : decRepr n ≠ "" := by
  intro h
  have := congrArg String.data h
  simp only [decRepr] at this
  exact decChars_ne_nil (show n < n + 1 by omega) this

theorem decChars_head_ne_zero : ∀ fuel n, 0 < n → n < fuel →
    ∀ c, (decChars fuel n).head? = some c → c ≠ '0' := by
  intro fuel
  induction fuel with
  | zero => omega
  | succ fuel ih =>
    intro n hpos hn c hc
    rw [decChars] at hc
    by_cases h10 : n < 10
    · rw [if_pos h10] at hc
      simp only [List.head?_cons, Option.some.injEq] at hc
      subst hc
      exact digitChar10_ne_zero hpos h10
    · rw [if_neg h10] at hc
      have hd : n / 10 < fuel := by
        have h1 : n / 10 < n := Nat.div_lt_self (by omega) (by norm_num)
        omega
      have hdpos : 0 < n / 10 := Nat.div_pos (by omega) (by norm_num)
      have hne : decChars fuel (n / 10) ≠ [] := decChars_ne_nil hd
      rcases hl : decChars fuel (n / 10) with _ | ⟨a, t⟩
      · exact absurd hl hne
      · rw [hl, List.cons_append, List.head?_cons] at hc
        have ha : (decChars fuel (n / 10)).head? = some a := by rw [hl]; rfl
        have := ih (n / 10) hdpos hd a ha
        simp only [Option.some.injEq] at hc
        rw [hc] at this
        exact this

theorem decRepr_head_ne_zero {n : Nat} (h : 0 < n) :
    ∀ c, (decRepr n).data.head? = some c → c ≠ '0' := by
  intro c hc
  exact decChars_head_ne_zero (n + 1) n h (by omega) c hc

end BetterProductive

namespace BetterProductive

/-! ## Sort model lemmas -/

theorem insertLe_perm {α : Type} (le : α → α → Bool) (a : α) :
    ∀ l : List α, (insertLe le a l).Perm (a :: l) := by
  intro l
  induction l with
  | nil => rfl
  | cons b t ih =>
    rw [insertLe]
    by_cases h : le b a = true
    · rw [if_pos h]
      exact (List.Perm.cons b ih).trans (List.Perm.swap a b t)
    · rw [if_neg h]

theorem jsSortBy_foldl_perm {α : Type} (le : α → α → Bool) :
    ∀ (l acc : List α), (l.foldl (fun acc a => insertLe le a acc) acc).Perm (acc ++ l) := by
  intro l
  induction l with
  | nil => intro acc; simp
  | cons a t ih =>
    intro acc
    rw [List.foldl_cons]
    refine ((ih _).trans (List.Perm.append_right t (insertLe_perm le a acc))).trans ?_
    rw [List.cons_append]
    exact List.perm_middle.symm

theorem jsSortBy_perm {α : Type} (le : α → α → Bool) (l : List α) :
    (jsSortBy le l).Perm l := by
  simpa [jsSortBy] using jsSortBy_foldl_perm le l []

theorem mem_insertLe {α : Type} (le : α → α → Bool) (a x : α) (l : List α) :
    x ∈ insertLe le a l ↔ x = a ∨ x ∈ l := by
  have := (insertLe_perm le a l).mem_iff (a := x)
  simpa using this

theorem insertLe_pairwise {α : Type} (le : α → α → Bool)
    (htot : ∀ a b : α, le a b = true ∨ le b a = true)
    (htrans : ∀ a b c : α, le a b = true → le b c = true → le a c = true)
    (a : α) :
    ∀ l : List α, l.Pairwise (fun x y => le x y = true) →
      (insertLe le a l).Pairwise (fun x y => le x y = true) := by
  intro l
  induction l with
  | nil => intro _; simp [insertLe]
  | cons b t ih =>
    intro hp
    rw [List.pairwise_cons] at hp
    obtain ⟨hb, ht⟩ := hp
    rw [insertLe]
    by_cases h : le b a = true
    · rw [if_pos h]
      rw [List.pairwise_cons]
      constructor
      · intro x hx
        rcases (mem_insertLe le a x t).mp hx with hx | hx
        · rw [hx]; exact h
        · exact hb x hx
      · exact ih ht
    · rw [if_neg h]
      have hab : le a b = true := by
        rcases htot a b with h1 | h1
        · exact h1
        · exact absurd h1 h
      rw [List.pairwise_cons]
      constructor
      · intro x hx
        rcases List.mem_cons.mp hx with hx | hx
        · rw [hx]; exact hab
        · exact htrans a b x hab (hb x hx)
      · rw [List.pairwise_cons]
        exact ⟨hb, ht⟩

theorem jsSortBy_pairwise {α : Type} (le : α → α → Bool)
    (htot : ∀ a b : α, le a b = true ∨ le b a = true)
    (htrans : ∀ a b c : α, le a b = true → le b c = true → le a c = true)
    (l : List α) :
    (jsSortBy le l).Pairwise (fun x y => le x y = true) := by
  rw [jsSortBy]
  have : ∀ (l acc : List α), acc.Pairwise (fun x y => le x y = true) →
      (l.foldl (fun acc a => insertLe le a acc) acc).Pairwise (fun x y => le x y = true) := by
    intro l
    induction l with
    | nil => intro acc h; simpa using h
    | cons a t ih =>
      intro acc h
      rw [List.foldl_cons]
      exact ih _ (insertLe_pairwise le htot htrans a acc h)
  exact this l [] (by simp)

/-! ## Association list lemmas -/

theorem lookupKey_jsMapSet {κ α : Type} [DecidableEq κ] (m : List (κ × α)) (k k' : κ) (v : α) :
    lookupKey (jsMapSet m k v) k' = if k = k' then some v else lookupKey m k' := by
  induction m with
  | nil =>
    by_cases h : k = k' <;> simp [jsMapSet, lookupKey, h]
  | cons e t ih =>
    obtain ⟨k₁, v₁⟩ := e
    rw [jsMapSet]
    by_cases h1 : k₁ = k
    · rw [if_pos h1]
      by_cases h2 : k = k'
      · simp [lookupKey, h2]
      · have h3 : ¬(k₁ = k') := by rw [h1]; exact h2
        simp [lookupKey, h2, h3]
    · rw [if_neg h1]
      by_cases h2 : k₁ = k'
      · have h3 : ¬(k = k') := by
          intro h4
          rw [h4] at h1
          exact h1 h2
        simp [lookupKey, h2, h3]
      · simp only [lookupKey, if_neg h2]
        exact ih

theorem jsMapSet_of_not_mem_keys {κ α : Type} [DecidableEq κ]
    (m : List (κ × α)) (k : κ) (v : α) (h : k ∉ m.map Prod.fst) :
    jsMapSet m k v = m ++ [(k, v)] := by
  induction m with
  | nil => rfl
  | cons e t ih =>
    obtain ⟨k₁, v₁⟩ := e
    simp only [List.map_cons, List.mem_cons] at h
    push_neg at h
    obtain ⟨h1, h2⟩ := h
    rw [jsMapSet, if_neg (by intro h3; exact h1 h3.symm), ih h2, List.cons_append]

theorem jsSetAdd_of_not_mem (s : List String) (x : String) (h : x ∉ s) :
    jsSetAdd s x = s ++ [x] := by
  rw [jsSetAdd, if_neg]
  intro h1
  exact h (by simpa using h1)

theorem lookupKey_eq_some_mem {κ α : Type} [DecidableEq κ] (m : List (κ × α)) (k : κ) (v : α)
    (h : lookupKey m k = some v) : (k, v) ∈ m ∧ k ∈ m.map Prod.fst := by
  induction m with
  | nil => simp [lookupKey] at h
  | cons e t ih =>
    obtain ⟨k₁, v₁⟩ := e
    rw [lookupKey] at h
    by_cases h1 : k₁ = k
    · rw [if_pos h1] at h
      simp only [Option.some.injEq] at h
      subst h1
      rw [h]
      simp
    · rw [if_neg h1] at h
      obtain ⟨ih1, ih2⟩ := ih h
      exact ⟨List.mem_cons_of_mem _ ih1, by simp [ih2]⟩

theorem lookupKey_eq_none_iff {κ α : Type} [DecidableEq κ] (m : List (κ × α)) (k : κ) :
    lookupKey m k = none ↔ k ∉ m.map Prod.fst := by
  induction m with
  | nil => simp [lookupKey]
  | cons e t ih =>
    obtain ⟨k₁, v₁⟩ := e
    rw [lookupKey]
    by_cases h1 : k₁ = k
    · simp [h1]
    · simp only [if_neg h1, List.map_cons, List.mem_cons]
      rw [ih]
      constructor
      · intro h2 h3
        rcases h3 with h3 | h3
        · exact h1 h3.symm
        · exact h2 h3
      · intro h2 h3
        exact h2 (Or.inr h3)

theorem mem_lookupKey_of_nodup {κ α : Type} [DecidableEq κ] (m : List (κ × α)) (k : κ) (v : α)
    (hnd : (m.map Prod.fst).Nodup) (h : (k, v) ∈ m) : lookupKey m k = some v := by
  induction m with
  | nil => simp at h
  | cons e t ih =>
    obtain ⟨k₁, v₁⟩ := e
    simp only [List.map_cons, List.nodup_cons] at hnd
    obtain ⟨hk₁, hnd⟩ := hnd
    rcases List.mem_cons.mp h with h1 | h1
    · obtain ⟨h2, h3⟩ := Prod.mk.injEq .. ▸ h1
      rw [lookupKey, if_pos h2.symm]
      exact congrArg some h3.symm
    · rw [lookupKey]
      by_cases h2 : k₁ = k
      · subst h2
        have : k₁ ∈ t.map Prod.fst := List.mem_map.mpr ⟨(k₁, v), h1, rfl⟩
        exact absurd this hk₁
      · rw [if_neg h2]
        exact ih hnd h1

end BetterProductive

namespace BetterProductive

/-! ## Identifier Generator (generatePrefix / generateAllPrefixes) -/

/-- A project as accumulated from the included entities of the API pages. -/
structure Project where
  id : String
  name : String
deriving DecidableEq, Repr

/-- The alphabetic skeleton of a name:
projectName.replace(slash-caret-a-zA-Z-slash-g, empty).toUpperCase(). -/
def alphaOf (projectName : String) : String :=
  String.mk ((projectName.data.filter Char.isAlpha).map Char.toUpper)

/-- The truncation loop of generatePrefix
(for len = minLength; len <= alpha.length; len++): first truncation of
alpha not already taken; the fuel argument only bounds the recursion and is
called with enough to cover the whole range. -/
def findTrunc (alpha : String) (existingPrefixes : List String) : Nat → Nat → Option String
  | 0, _ => none
  | fuel + 1, len =>
    if len ≤ alpha.length then
      if existingPrefixes.contains (String.mk (alpha.data.take len)) then
        findTrunc alpha existingPrefixes fuel (len + 1)
      else some (String.mk (alpha.data.take len))
    else none

/-- The numeric-suffix fallback loop of generatePrefix
(let i = 2; while (existing.has(base + i)) i++); the fuel is called with
existing.length + 1, which the pigeonhole argument below shows is enough. -/
def findSuffix (basePrefix : String) (existingPrefixes : List String) : Nat → Nat → Nat
  | 0, i => i
  | fuel + 1, i =>
    if existingPrefixes.contains (basePrefix ++ decRepr i) then
      findSuffix basePrefix existingPrefixes fuel (i + 1)
    else i

/-- generatePrefix(projectName, existingPrefixes, minLength = 4) of
src/src/index.js lines 529-553. The existing prefixes are the JS Set as a
duplicate-free list, so existingPrefixes.length is the JS Set size. -/
def generatePrefix (projectName : String) (existingPrefixes : List String)
    (minLength : Nat := 4) : String :=
  let alpha := alphaOf projectName
  if alpha.length = 0 then
    "PROJ" ++ decRepr (existingPrefixes.length + 1)
  else
    match findTrunc alpha existingPrefixes (alpha.length + 1 - minLength) minLength with
    | some p => p
    | none =>
      let basePrefix := String.mk (alpha.data.take minLength)
      basePrefix ++ decRepr (findSuffix basePrefix existingPrefixes
        (existingPrefixes.length + 1) 2)

/-- The two tables generateAllPrefixes returns: prefixMap is projectId to
prefix, prefixIndex is prefix to projectId. -/
structure PrefixTables where
  prefixMap : List (String × String)
  prefixIndex : List (String × String)
deriving DecidableEq, Repr

/-- The assignment loop of generateAllPrefixes over the sorted projects. -/
def assignAll : List Project → List (String × String) → List (String × String) →
    List String → PrefixTables
  | [], pm, pi, _ => ⟨pm, pi⟩
  | p :: rest, pm, pi, existing =>
    let pfx := generatePrefix p.name existing
    assignAll rest (jsMapSet pm p.id pfx) (jsMapSet pi pfx p.id) (jsSetAdd existing pfx)

/-- The comparator of the sort in generateAllPrefixes:
(a, b) => a.name.localeCompare(b.name), modelled as code-unit order. -/
def byNameLe (a b : Project) : Bool := strLe a.name b.name

/-- generateAllPrefixes(projects) of src/src/index.js lines 555-571:
sort by name (localeCompare modelled as code-unit order), then assign in
order. -/
def generateAllPrefixes (projects : List Project) : PrefixTables :=
  assignAll (jsSortBy byNameLe projects) [] [] []

end BetterProductive

namespace BetterProductive

/-! ## Correctness of the identifier generator -/

/-- Invariant carried through a generation pass: any taken prefix of the
shape PROJ followed by the decimal digits of k has k at most the number of
taken prefixes. It makes the unchecked numeric fallback for letterless
names fresh. -/
def ProjInv (existing : List String) : Prop :=
  ∀ k : Nat, ("PROJ" ++ decRepr k) ∈ existing → k ≤ existing.length

theorem proj_decRepr_inj {j k : Nat} (h : "PROJ" ++ decRepr j = "PROJ" ++ decRepr k) :
    j = k := by
  have hd := congrArg String.data h
  rw [String.data_append, String.data_append] at hd
  have := List.append_cancel_left hd
  have hs : decRepr j = decRepr k := by
    have h1 : decRepr j = String.mk (decRepr j).data := rfl
    have h2 : decRepr k = String.mk (decRepr k).data := rfl
    rw [h1, h2, this]
  exact decRepr_inj hs

theorem nodigit_ne_projnum (s : String) (hnd : ∀ c ∈ s.data, c.isDigit = false)
    (k : Nat) : s ≠ "PROJ" ++ decRepr k := by
  intro h
  have hd := congrArg String.data h
  rw [String.data_append] at hd
  have hne := decChars_ne_nil (show k < k + 1 by omega)
  rcases hl : (decRepr k).data with _ | ⟨c, t⟩
  · exact hne (show decChars (k + 1) k = [] from hl)
  · have hcmem : c ∈ s.data := by
      rw [hd, hl]
      exact List.mem_append.mpr (Or.inr (List.mem_cons_self c t))
    have h1 : c.isDigit = false := hnd c hcmem
    have h2 : c.isDigit = true := by
      apply decRepr_all_digits k
      rw [hl]
      exact List.mem_cons_self c t
    rw [h1] at h2
    exact Bool.false_ne_true h2

theorem split_nodigit_digit : ∀ (a₁ : List Char) (a₂ d₁ d₂ : List Char),
    (∀ c ∈ a₁, c.isDigit = false) → (∀ c ∈ a₂, c.isDigit = false) →
    (∀ c ∈ d₁, c.isDigit = true) → (∀ c ∈ d₂, c.isDigit = true) →
    d₁ ≠ [] → d₂ ≠ [] → a₁ ++ d₁ = a₂ ++ d₂ → a₁ = a₂ ∧ d₁ = d₂ := by
  intro a₁
  induction a₁ with
  | nil =>
    intro a₂ d₁ d₂ _ ha₂ hd₁ _ hne₁ _ heq
    cases a₂ with
    | nil => exact ⟨rfl, heq⟩
    | cons c t =>
      exfalso
      rcases hl : d₁ with _ | ⟨c₁, t₁⟩
      · exact hne₁ hl
      · rw [hl] at heq
        simp only [List.nil_append, List.cons_append, List.cons.injEq] at heq
        have h1 : c₁.isDigit = true := hd₁ c₁ (by rw [hl]; exact List.mem_cons_self c₁ t₁)
        have h2 : c.isDigit = false := ha₂ c (List.mem_cons_self c t)
        rw [heq.1, h2] at h1
        exact Bool.false_ne_true h1
  | cons c t ih =>
    intro a₂ d₁ d₂ ha₁ ha₂ hd₁ hd₂ hne₁ hne₂ heq
    cases a₂ with
    | nil =>
      exfalso
      rcases hl : d₂ with _ | ⟨c₂, t₂⟩
      · exact hne₂ hl
      · rw [hl] at heq
        simp only [List.cons_append, List.nil_append, List.cons.injEq] at heq
        have h1 : c₂.isDigit = true := hd₂ c₂ (by rw [hl]; exact List.mem_cons_self c₂ t₂)
        have h2 : c.isDigit = false := ha₁ c (List.mem_cons_self c t)
        rw [← heq.1, h2] at h1
        exact Bool.false_ne_true h1
    | cons c₂ t₂ =>
      simp only [List.cons_append, List.cons.injEq] at heq
      obtain ⟨hc, ht⟩ := heq
      have := ih t₂ d₁ d₂ (fun x hx => ha₁ x (List.mem_cons_of_mem c hx))
        (fun x hx => ha₂ x (List.mem_cons_of_mem c₂ hx)) hd₁ hd₂ hne₁ hne₂ ht
      exact ⟨by rw [hc, this.1], this.2⟩

theorem alphaOf_no_digits (projectName : String) :
    ∀ c ∈ (alphaOf projectName).data, c.isDigit = false := by
  intro c hc
  simp only [alphaOf, List.mem_map, List.mem_filter] at hc
  obtain ⟨c₀, ⟨_, hfilter⟩, hup⟩ := hc
  rw [← hup]
  exact isAlpha_toUpper_not_isDigit c₀ hfilter

theorem take_alphaOf_no_digits (projectName : String) (l : Nat) :
    ∀ c ∈ String.mk ((alphaOf projectName).data.take l) |>.data, c.isDigit = false := by
  intro c hc
  exact alphaOf_no_digits projectName c (List.mem_of_mem_take hc)

end BetterProductive

namespace BetterProductive

theorem findTrunc_some_spec (alpha : String) (ex : List String) :
    ∀ fuel len p, findTrunc alpha ex fuel len = some p →
      p ∉ ex ∧ ∃ l, len ≤ l ∧ l ≤ alpha.length ∧ p = String.mk (alpha.data.take l) := by
  intro fuel
  induction fuel with
  | zero => intro len p h; simp [findTrunc] at h
  | succ fuel ih =>
    intro len p h
    rw [findTrunc] at h
    by_cases hlen : len ≤ alpha.length
    · rw [if_pos hlen] at h
      by_cases hc : ex.contains (String.mk (alpha.data.take len)) = true
      · rw [if_pos hc] at h
        obtain ⟨h1, l, h2, h3, h4⟩ := ih (len + 1) p h
        exact ⟨h1, l, by omega, h3, h4⟩
      · rw [if_neg hc] at h
        simp only [Option.some.injEq] at h
        refine ⟨?_, len, le_refl _, hlen, h.symm⟩
        rw [← h]
        intro hmem
        exact hc (by simpa using hmem)
    · rw [if_neg hlen] at h
      exact absurd h (by simp)

theorem findTrunc_none_spec (alpha : String) (ex : List String) :
    ∀ fuel len, alpha.length + 1 ≤ len + fuel →
      findTrunc alpha ex fuel len = none →
      ∀ l, len ≤ l → l ≤ alpha.length → String.mk (alpha.data.take l) ∈ ex := by
  intro fuel
  induction fuel with
  | zero => intro len hf _ l hl₁ hl₂; omega
  | succ fuel ih =>
    intro len hf h l hl₁ hl₂
    rw [findTrunc] at h
    by_cases hlen : len ≤ alpha.length
    · rw [if_pos hlen] at h
      by_cases hc : ex.contains (String.mk (alpha.data.take len)) = true
      · rw [if_pos hc] at h
        by_cases hll : len = l
        · subst hll
          simpa using hc
        · exact ih (len + 1) (by omega) h l (by omega) hl₂
      · rw [if_neg hc] at h
        exact absurd h (by simp)
    · omega

theorem findSuffix_spec (basePrefix : String) (ex : List String) :
    ∀ fuel i, (∃ j, i ≤ j ∧ j < i + fuel ∧ (basePrefix ++ decRepr j) ∉ ex) →
      (basePrefix ++ decRepr (findSuffix basePrefix ex fuel i)) ∉ ex ∧
      i ≤ findSuffix basePrefix ex fuel i ∧
      ∀ j, i ≤ j → j < findSuffix basePrefix ex fuel i → (basePrefix ++ decRepr j) ∈ ex := by
  intro fuel
  induction fuel with
  | zero =>
    intro i h
    obtain ⟨j, h1, h2, _⟩ := h
    omega
  | succ fuel ih =>
    intro i h
    rw [findSuffix]
    by_cases hc : ex.contains (basePrefix ++ decRepr i) = true
    · rw [if_pos hc]
      have hmem : (basePrefix ++ decRepr i) ∈ ex := by simpa using hc
      have h' : ∃ j, i + 1 ≤ j ∧ j < (i + 1) + fuel ∧ (basePrefix ++ decRepr j) ∉ ex := by
        obtain ⟨j, h1, h2, h3⟩ := h
        refine ⟨j, ?_, by omega, h3⟩
        rcases Nat.lt_or_ge i j with hij | hij
        · omega
        · have : j = i := by omega
          rw [this] at h3
          exact absurd hmem h3
      obtain ⟨r1, r2, r3⟩ := ih (i + 1) h'
      refine ⟨r1, by omega, ?_⟩
      intro j hj₁ hj₂
      by_cases hji : j = i
      · rw [hji]; exact hmem
      · exact r3 j (by omega) hj₂
    · rw [if_neg hc]
      refine ⟨?_, le_refl _, ?_⟩
      · intro hmem
        exact hc (by simpa using hmem)
      · intro j hj₁ hj₂
        omega

theorem suffix_candidates_nodup (basePrefix : String) (s n : Nat) :
    ((List.range' s n).map (fun j => basePrefix ++ decRepr j)).Nodup := by
  apply List.Nodup.map
  · intro j k hjk
    have hd := congrArg String.data hjk
    rw [String.data_append, String.data_append] at hd
    have := List.append_cancel_left hd
    have hs : decRepr j = decRepr k := by
      have h1 : decRepr j = String.mk (decRepr j).data := rfl
      have h2 : decRepr k = String.mk (decRepr k).data := rfl
      rw [h1, h2, this]
    exact decRepr_inj hs
  · exact List.nodup_range' s n

theorem findSuffix_exists_free (basePrefix : String) (ex : List String) :
    ∃ j, 2 ≤ j ∧ j < 2 + (ex.length + 1) ∧ (basePrefix ++ decRepr j) ∉ ex := by
  by_contra hcon
  push_neg at hcon
  have hsub : ((List.range' 2 (ex.length + 1)).map (fun j => basePrefix ++ decRepr j)) ⊆ ex := by
    intro x hx
    rw [List.mem_map] at hx
    obtain ⟨j, hj, hx⟩ := hx
    rw [List.mem_range'] at hj
    rw [← hx]
    exact hcon j (by omega) (by omega)
  have hlen := (List.Nodup.subperm (suffix_candidates_nodup basePrefix 2 (ex.length + 1))
    hsub).length_le
  simp only [List.length_map, List.length_range'] at hlen
  omega

end BetterProductive

namespace BetterProductive

theorem generatePrefix_cases (projectName : String) (ex : List String) :
    ((alphaOf projectName).length = 0 ∧
      generatePrefix projectName ex = "PROJ" ++ decRepr (ex.length + 1)) ∨
    (∃ p, findTrunc (alphaOf projectName) ex ((alphaOf projectName).length + 1 - 4) 4 = some p ∧
      generatePrefix projectName ex = p) ∨
    ((alphaOf projectName).length ≠ 0 ∧
      findTrunc (alphaOf projectName) ex ((alphaOf projectName).length + 1 - 4) 4 = none ∧
      generatePrefix projectName ex =
        String.mk ((alphaOf projectName).data.take 4) ++
          decRepr (findSuffix (String.mk ((alphaOf projectName).data.take 4)) ex
            (ex.length + 1) 2)) := by
  rw [generatePrefix]
  by_cases h0 : (alphaOf projectName).length = 0
  · left
    simp [h0]
  · right
    rcases hft : findTrunc (alphaOf projectName) ex ((alphaOf projectName).length + 1 - 4) 4
      with _ | p
    · right
      simp [h0, hft]
    · left
      refine ⟨p, rfl, ?_⟩
      simp [h0]

theorem generatePrefix_fresh (projectName : String) (ex : List String)
    (hnd : ex.Nodup) (hinv : ProjInv ex) : generatePrefix projectName ex ∉ ex := by
  rcases generatePrefix_cases projectName ex with ⟨h0, heq⟩ | ⟨p, hft, heq⟩ | ⟨h0, hft, heq⟩
  · rw [heq]
    intro hmem
    have := hinv (ex.length + 1) hmem
    omega
  · rw [heq]
    exact (findTrunc_some_spec _ ex _ _ p hft).1
  · rw [heq]
    have hfree := (findSuffix_spec (String.mk ((alphaOf projectName).data.take 4)) ex
      (ex.length + 1) 2 (findSuffix_exists_free _ ex)).1
    exact hfree

theorem basePrefix_eq_PROJ_mem {projectName : String} {ex : List String}
    (h0 : (alphaOf projectName).length ≠ 0)
    (hft : findTrunc (alphaOf projectName) ex ((alphaOf projectName).length + 1 - 4) 4 = none)
    (hbase : String.mk ((alphaOf projectName).data.take 4) = "PROJ") :
    "PROJ" ∈ ex := by
  have hlen4 : 4 ≤ (alphaOf projectName).length := by
    have := congrArg (fun s => s.data.length) hbase
    simp only [List.length_take] at this
    have hdl : (alphaOf projectName).length = (alphaOf projectName).data.length := rfl
    have : min 4 (alphaOf projectName).data.length = 4 := this
    omega
  have := findTrunc_none_spec (alphaOf projectName) ex
    ((alphaOf projectName).length + 1 - 4) 4 (by omega) hft 4 (le_refl _) hlen4
  rw [hbase] at this
  exact this

theorem generatePrefix_inv (projectName : String) (ex : List String)
    (hnd : ex.Nodup) (hinv : ProjInv ex) :
    ProjInv (ex ++ [generatePrefix projectName ex]) := by
  intro k hk
  rw [List.length_append, List.length_singleton]
  rcases List.mem_append.mp hk with hk | hk
  · have := hinv k hk
    omega
  · rw [List.mem_singleton] at hk
    rcases generatePrefix_cases projectName ex with ⟨h0, heq⟩ | ⟨p, hft, heq⟩ | ⟨h0, hft, heq⟩
    · rw [heq] at hk
      have := proj_decRepr_inj hk.symm
      omega
    · rw [heq] at hk
      obtain ⟨hfresh, l, hl₁, hl₂, hp⟩ := findTrunc_some_spec _ ex _ _ p hft
      exfalso
      have hnodig : ∀ c ∈ p.data, c.isDigit = false := by
        rw [hp]
        exact take_alphaOf_no_digits projectName l
      exact nodigit_ne_projnum p hnodig k hk.symm
    · rw [heq] at hk
      set basePrefix := String.mk ((alphaOf projectName).data.take 4) with hbdef
      set i := findSuffix basePrefix ex (ex.length + 1) 2 with hidef
      have hspec := findSuffix_spec basePrefix ex (ex.length + 1) 2
        (findSuffix_exists_free _ ex)
      obtain ⟨hfree, hge2, hwin⟩ := hspec
      have hsplit : basePrefix = "PROJ" ∧ decRepr i = decRepr k := by
        have hd := congrArg String.data hk.symm
        rw [String.data_append, String.data_append] at hd
        have hmain := split_nodigit_digit basePrefix.data "PROJ".data
          (decRepr i).data (decRepr k).data
          (take_alphaOf_no_digits projectName 4)
          (by intro c hc; fin_cases hc <;> decide)
          (decRepr_all_digits i) (decRepr_all_digits k)
          (decChars_ne_nil (show i < i + 1 by omega))
          (decChars_ne_nil (show k < k + 1 by omega)) hd
        exact ⟨String.ext hmain.1, String.ext hmain.2⟩
      obtain ⟨hbase, hik⟩ := hsplit
      have hik' : i = k := decRepr_inj hik
      subst hik'
      -- count the taken prefixes PROJ, PROJ2, ..., PROJ(i-1)
      have hPROJ : "PROJ" ∈ ex := basePrefix_eq_PROJ_mem h0 hft hbase
      have hwin' : ∀ j, 2 ≤ j → j < i → ("PROJ" ++ decRepr j) ∈ ex := by
        intro j h1 h2
        have := hwin j h1 h2
        rw [hbase] at this
        exact this
      have hcand : ("PROJ" :: (List.range' 2 (i - 2)).map
          (fun j => "PROJ" ++ decRepr j)) ⊆ ex := by
        intro x hx
        rcases List.mem_cons.mp hx with hx | hx
        · rw [hx]; exact hPROJ
        · rw [List.mem_map] at hx
          obtain ⟨j, hj, hx⟩ := hx
          rw [List.mem_range'] at hj
          rw [← hx]
          exact hwin' j (by omega) (by omega)
      have hcnd : ("PROJ" :: (List.range' 2 (i - 2)).map
          (fun j => "PROJ" ++ decRepr j)).Nodup := by
        rw [List.nodup_cons]
        refine ⟨?_, suffix_candidates_nodup "PROJ" 2 (i - 2)⟩
        intro hmem
        rw [List.mem_map] at hmem
        obtain ⟨j, _, hj⟩ := hmem
        have hd := congrArg String.data hj
        rw [String.data_append] at hd
        have hlen := congrArg List.length hd
        rw [List.length_append] at hlen
        have hne := decChars_ne_nil (show j < j + 1 by omega)
        have : (decRepr j).data ≠ [] := hne
        have : 0 < (decRepr j).data.length := List.length_pos.mpr this
        omega
      have hle := (List.Nodup.subperm hcnd hcand).length_le
      simp only [List.length_cons, List.length_map, List.length_range'] at hle
      omega

end BetterProductive

namespace BetterProductive

theorem assignAll_spec : ∀ (ps : List Project) (pm pi : List (String × String))
    (existing : List String),
    existing.Nodup → ProjInv existing → pm.map Prod.snd = existing →
    pi = pm.map (fun e => (e.2, e.1)) →
    (pm.map Prod.fst ++ ps.map Project.id).Nodup →
    ((assignAll ps pm pi existing).prefixMap.map Prod.snd).Nodup ∧
    ((assignAll ps pm pi existing).prefixMap.map Prod.fst).Nodup ∧
    (assignAll ps pm pi existing).prefixIndex =
      (assignAll ps pm pi existing).prefixMap.map (fun e => (e.2, e.1)) := by
  intro ps
  induction ps with
  | nil =>
    intro pm pi existing hnd hinv hsnd hswap hids
    rw [assignAll]
    simp only [List.map_nil, List.append_nil] at hids
    exact ⟨hsnd ▸ hnd, hids, hswap⟩
  | cons p rest ih =>
    intro pm pi existing hnd hinv hsnd hswap hids
    rw [assignAll]
    have hfresh : generatePrefix p.name existing ∉ existing :=
      generatePrefix_fresh p.name existing hnd hinv
    set pfx := generatePrefix p.name existing with hpfx
    have hidnotin : p.id ∉ pm.map Prod.fst := by
      intro hmem
      rw [List.map_cons] at hids
      have := (List.nodup_append.mp hids).2.2
      exact this hmem (List.mem_cons_self _ _)
    have hpfxnotin : pfx ∉ pi.map Prod.fst := by
      rw [hswap]
      intro hmem
      rw [List.map_map] at hmem
      have : pfx ∈ pm.map Prod.snd := by
        rcases List.mem_map.mp hmem with ⟨e, he, hx⟩
        exact List.mem_map.mpr ⟨e, he, hx⟩
      rw [hsnd] at this
      exact hfresh this
    rw [jsMapSet_of_not_mem_keys pm p.id pfx hidnotin,
      jsMapSet_of_not_mem_keys pi pfx p.id hpfxnotin,
      jsSetAdd_of_not_mem existing pfx hfresh]
    apply ih
    · exact List.Nodup.append hnd (List.nodup_singleton pfx)
        (by intro x hx hy; rw [List.mem_singleton] at hy; rw [hy] at hx; exact hfresh hx)
    · exact generatePrefix_inv p.name existing hnd hinv
    · rw [List.map_append, hsnd]
      rfl
    · rw [hswap, List.map_append]
      rfl
    · simp only [List.map_append, List.map_cons, List.map_nil, List.append_assoc,
        List.singleton_append]
      simpa using hids

theorem lookupKey_iff_mem_of_nodup {κ α : Type} [DecidableEq κ] (m : List (κ × α))
    (hnd : (m.map Prod.fst).Nodup) (k : κ) (v : α) :
    lookupKey m k = some v ↔ (k, v) ∈ m := by
  constructor
  · intro h
    exact (lookupKey_eq_some_mem m k v h).1
  · intro h
    exact mem_lookupKey_of_nodup m k v hnd h

end BetterProductive

namespace BetterProductive

/-- C1: on any project list with pairwise distinct ids, the generated
prefixes are pairwise distinct, the prefixMap keys are the distinct project
ids, prefixIndex is exactly the transpose of prefixMap, and the two tables
are inverse to one another as lookup tables. -/
theorem C1_generateAllPrefixes_distinct_bijective (projects : List Project)
    (hids : (projects.map Project.id).Nodup) :
    ((generateAllPrefixes projects).prefixMap.map Prod.snd).Nodup ∧
    ((generateAllPrefixes projects).prefixMap.map Prod.fst).Nodup ∧
    (generateAllPrefixes projects).prefixIndex =
      (generateAllPrefixes projects).prefixMap.map (fun e => (e.2, e.1)) ∧
    (∀ pid pfx, lookupKey (generateAllPrefixes projects).prefixMap pid = some pfx ↔
      lookupKey (generateAllPrefixes projects).prefixIndex pfx = some pid) := by
  have hsortperm := jsSortBy_perm byNameLe projects
  have hsortids : ((jsSortBy byNameLe projects).map
      Project.id).Nodup := by
    rw [(hsortperm.map Project.id).nodup_iff]
    exact hids
  have hmain := assignAll_spec
    (jsSortBy byNameLe projects) [] [] []
    List.nodup_nil (by intro k hk; simp at hk) rfl rfl (by simpa using hsortids)
  rw [generateAllPrefixes]
  obtain ⟨h1, h2, h3⟩ := hmain
  refine ⟨h1, h2, h3, ?_⟩
  intro pid pfx
  set r := assignAll (jsSortBy byNameLe projects)
    [] [] [] with hr
  have hkeysIdx : (r.prefixIndex.map Prod.fst).Nodup := by
    rw [h3, List.map_map]
    have : (Prod.fst ∘ fun e : String × String => (e.2, e.1)) = Prod.snd := rfl
    rw [this]
    exact h1
  rw [lookupKey_iff_mem_of_nodup r.prefixMap h2 pid pfx,
    lookupKey_iff_mem_of_nodup r.prefixIndex hkeysIdx pfx pid, h3]
  constructor
  · intro h
    exact List.mem_map.mpr ⟨(pid, pfx), h, rfl⟩
  · intro h
    rcases List.mem_map.mp h with ⟨e, he, hx⟩
    obtain ⟨h4, h5⟩ := Prod.mk.injEq .. ▸ hx
    have : e = (pid, pfx) := by
      obtain ⟨e1, e2⟩ := e
      simp only at h4 h5
      rw [Prod.mk.injEq]
      exact ⟨h5, h4⟩
    rw [← this]
    exact he

/-- Witness for C1 at a concrete project list containing a letterless name:
the three projects get prefixes ALPH, PROJ2 and ALPHA with distinct ids and
mutually inverse tables. -/
theorem C1_witness :
    (([⟨"7", "Alpha"⟩, ⟨"8", "123"⟩, ⟨"9", "Alphabet"⟩] : List Project).map
      Project.id).Nodup ∧
    ((generateAllPrefixes [⟨"7", "Alpha"⟩, ⟨"8", "123"⟩, ⟨"9", "Alphabet"⟩]).prefixMap.map
      Prod.snd).Nodup := by
  constructor
  · decide
  · exact (C1_generateAllPrefixes_distinct_bijective
      [⟨"7", "Alpha"⟩, ⟨"8", "123"⟩, ⟨"9", "Alphabet"⟩] (by decide)).1

end BetterProductive

namespace BetterProductive

theorem charsLe_total : ∀ l₁ l₂ : List Char, charsLe l₁ l₂ = true ∨ charsLe l₂ l₁ = true := by
  intro l₁
  induction l₁ with
  | nil => intro l₂; left; rfl
  | cons c t ih =>
    intro l₂
    cases l₂ with
    | nil => right; rfl
    | cons d u =>
      rw [charsLe, charsLe]
      rcases Nat.lt_trichotomy c.toNat d.toNat with h | h | h
      · left; simp [h]
      · have h1 : ¬(c.toNat < d.toNat) := by omega
        have h2 : ¬(d.toNat < c.toNat) := by omega
        rcases ih u with h3 | h3
        · left; simp [h1, h2, h3]
        · right; simp [h1, h2, h3]
      · right; simp [h]

theorem charsLe_trans : ∀ l₁ l₂ l₃ : List Char, charsLe l₁ l₂ = true →
    charsLe l₂ l₃ = true → charsLe l₁ l₃ = true := by
  intro l₁
  induction l₁ with
  | nil => intro l₂ l₃ _ _; rfl
  | cons c t ih =>
    intro l₂ l₃ h12 h23
    cases l₂ with
    | nil => exact absurd h12 (by simp [charsLe])
    | cons d u =>
      cases l₃ with
      | nil => exact absurd h23 (by simp [charsLe])
      | cons e v =>
        rw [charsLe] at h12 h23 ⊢
        rcases Nat.lt_trichotomy d.toNat c.toNat with hdc | hdc | hdc
        · rw [if_neg (by omega), if_pos hdc] at h12
          exact absurd h12 (by simp)
        · rcases Nat.lt_trichotomy e.toNat d.toNat with hed | hed | hed
          · rw [if_neg (by omega), if_pos hed] at h23
            exact absurd h23 (by simp)
          · rw [if_neg (by omega), if_neg (by omega)] at h12 h23 ⊢
            exact ih u v h12 h23
          · rw [if_pos (by omega)]
        · rcases Nat.lt_trichotomy e.toNat d.toNat with hed | hed | hed
          · rw [if_neg (by omega), if_pos hed] at h23
            exact absurd h23 (by simp)
          · rw [if_pos (by omega)]
          · rw [if_pos (by omega)]

theorem charsLe_antisymm : ∀ l₁ l₂ : List Char, charsLe l₁ l₂ = true →
    charsLe l₂ l₁ = true → l₁ = l₂ := by
  intro l₁
  induction l₁ with
  | nil =>
    intro l₂ _ h21
    cases l₂ with
    | nil => rfl
    | cons d u => exact absurd h21 (by simp [charsLe])
  | cons c t ih =>
    intro l₂ h12 h21
    cases l₂ with
    | nil => exact absurd h12 (by simp [charsLe])
    | cons d u =>
      rw [charsLe] at h12 h21
      rcases Nat.lt_trichotomy c.toNat d.toNat with h | h | h
      · exfalso
        rw [if_neg (by omega), if_pos h] at h21
        exact Bool.false_ne_true h21
      · have h1 : ¬(c.toNat < d.toNat) := by omega
        have h2 : ¬(d.toNat < c.toNat) := by omega
        rw [if_neg h1, if_neg h2] at h12
        rw [if_neg h2, if_neg h1] at h21
        have hcd : c = d := by
          have hval : c.val.toNat = d.val.toNat := h
          exact Char.eq_of_val_eq (UInt32.toNat.inj hval)
        rw [hcd, ih u h12 h21]
      · exfalso
        rw [if_neg (by omega), if_pos h] at h12
        exact Bool.false_ne_true h12

theorem strLe_total (a b : String) : strLe a b = true ∨ strLe b a = true :=
  charsLe_total a.data b.data

theorem strLe_trans (a b c : String) (h1 : strLe a b = true) (h2 : strLe b c = true) :
    strLe a c = true :=
  charsLe_trans a.data b.data c.data h1 h2

theorem strLe_antisymm (a b : String) (h1 : strLe a b = true) (h2 : strLe b a = true) :
    a = b :=
  String.ext (charsLe_antisymm a.data b.data h1 h2)

theorem sorted_perm_nodup_names_eq :
    ∀ (l₁ l₂ : List Project), l₁.Perm l₂ →
      l₁.Pairwise (fun a b => byNameLe a b = true) →
      l₂.Pairwise (fun a b => byNameLe a b = true) →
      (l₁.map Project.name).Nodup → l₁ = l₂ := by
  intro l₁
  induction l₁ with
  | nil =>
    intro l₂ hp _ _ _
    exact hp.nil_eq
  | cons a t₁ ih =>
    intro l₂ hp hs₁ hs₂ hn
    cases l₂ with
    | nil => exact absurd hp.eq_nil (by simp)
    | cons b t₂ =>
      by_cases hab : a = b
      · subst hab
        have htp := hp.cons_inv
        rw [List.pairwise_cons] at hs₁ hs₂
        rw [List.map_cons, List.nodup_cons] at hn
        rw [ih t₂ htp hs₁.2 hs₂.2 hn.2]
      · exfalso
        have hain : a ∈ b :: t₂ := hp.mem_iff.mp (List.mem_cons_self a t₁)
        have hbin : b ∈ a :: t₁ := hp.symm.mem_iff.mp (List.mem_cons_self b t₂)
        have hat₂ : a ∈ t₂ := by
          rcases List.mem_cons.mp hain with h | h
          · exact absurd h hab
          · exact h
        have hbt₁ : b ∈ t₁ := by
          rcases List.mem_cons.mp hbin with h | h
          · exact absurd h.symm hab
          · exact h
        rw [List.pairwise_cons] at hs₁ hs₂
        have h1 : strLe a.name b.name = true := hs₁.1 b hbt₁
        have h2 : strLe b.name a.name = true := hs₂.1 a hat₂
        have hname : a.name = b.name := strLe_antisymm _ _ h1 h2
        rw [List.map_cons, List.nodup_cons] at hn
        apply hn.1
        rw [hname]
        exact List.mem_map.mpr ⟨b, hbt₁, rfl⟩

/-- C4 (amended): generateAllPrefixes is insensitive to the input order for
any list of projects with pairwise distinct names: any permutation produces
identical prefixMap and prefixIndex. (Being a pure function, running it
twice on one input trivially yields identical mappings.) The distinct-name
hypothesis is necessary: see the counterexample. -/
theorem C4_generateAllPrefixes_perm_invariant (l₁ l₂ : List Project)
    (hn : (l₁.map Project.name).Nodup) (hp : l₁.Perm l₂) :
    generateAllPrefixes l₁ = generateAllPrefixes l₂ := by
  rw [generateAllPrefixes, generateAllPrefixes]
  have htot : ∀ a b : Project, byNameLe a b = true ∨ byNameLe b a = true := by
    intro a b
    exact strLe_total a.name b.name
  have htrans : ∀ a b c : Project, byNameLe a b = true →
      byNameLe b c = true → byNameLe a c = true := by
    intro a b c h1 h2
    exact strLe_trans a.name b.name c.name h1 h2
  have hsort : jsSortBy byNameLe l₁ =
      jsSortBy byNameLe l₂ := by
    apply sorted_perm_nodup_names_eq
    · exact ((jsSortBy_perm _ l₁).trans hp).trans (jsSortBy_perm _ l₂).symm
    · exact jsSortBy_pairwise _ htot htrans l₁
    · exact jsSortBy_pairwise _ htot htrans l₂
    · rw [((jsSortBy_perm _ l₁).map Project.name).nodup_iff]
      exact hn
  rw [hsort]

/-- Counterexample to C4 as stated: two distinct projects that share the
name Alpha. The stable sort leaves ties in input order, so the permuted
list assigns the prefixes ALPH and ALPHA to the other project. -/
theorem C4_counterexample :
    ([⟨"1", "Alpha"⟩, ⟨"2", "Alpha"⟩] : List Project).Perm
      [⟨"2", "Alpha"⟩, ⟨"1", "Alpha"⟩] ∧
    generateAllPrefixes [⟨"1", "Alpha"⟩, ⟨"2", "Alpha"⟩] ≠
      generateAllPrefixes [⟨"2", "Alpha"⟩, ⟨"1", "Alpha"⟩] := by
  constructor
  · exact List.Perm.swap (⟨"2", "Alpha"⟩ : Project) ⟨"1", "Alpha"⟩ []
  · decide

/-- Witness for C4 at a concrete two-project list with distinct names. -/
theorem C4_witness :
    (([⟨"1", "Alpha"⟩, ⟨"2", "Beta"⟩] : List Project).map Project.name).Nodup ∧
    generateAllPrefixes [⟨"1", "Alpha"⟩, ⟨"2", "Beta"⟩] =
      generateAllPrefixes [⟨"2", "Beta"⟩, ⟨"1", "Alpha"⟩] :=
  ⟨by decide, C4_generateAllPrefixes_perm_invariant _ _ (by decide)
    (List.Perm.swap (⟨"2", "Beta"⟩ : Project) ⟨"1", "Alpha"⟩ [])⟩

/-- C5 (amended): on the two projects Prime100 Support and Prime100 US
Support, generateAllPrefixes assigns PRIM to the first and PRIME (the
five-character truncation of PRIMEUSSUPPORT) to the second. -/
theorem C5_prime100_prefixes :
    generateAllPrefixes [⟨"1", "Prime100 Support"⟩, ⟨"2", "Prime100 US Support"⟩] =
      ⟨[("1", "PRIM"), ("2", "PRIME")], [("PRIM", "1"), ("PRIME", "2")]⟩ := by
  decide

/-- Counterexample to C5 as stated: the prefix generated for
Prime100 US Support is PRIME, not PRIMU (its alphabetic skeleton is
PRIMEUSSUPPORT, whose five-character truncation is PRIME). -/
theorem C5_counterexample :
    lookupKey (generateAllPrefixes
      [⟨"1", "Prime100 Support"⟩, ⟨"2", "Prime100 US Support"⟩]).prefixMap "2" =
        some "PRIME" ∧
    lookupKey (generateAllPrefixes
      [⟨"1", "Prime100 Support"⟩, ⟨"2", "Prime100 US Support"⟩]).prefixMap "2" ≠
        some "PRIMU" := by
  constructor
  · decide
  · decide

end BetterProductive

namespace BetterProductive

/-! ## Task data model -/

/-- A task record as it sits in the task map before the projectPrefix and
ticketKey stamping at the end of a sync (those two fields are absent on
freshly fetched records, and carried values on records copied forward from
the prior snapshot). The source field _deleted is called deleted here. -/
structure Task where
  id : Nat
  ticketNumber : Nat
  title : String
  projectId : Option String
  project : String
  status : String
  assigneeId : Option String
  assignee : String
  dueDate : Option String
  createdAt : String
  updatedAt : String
  url : String
  projectPrefix : Option String
  ticketKey : Option String
  deleted : Bool
deriving DecidableEq, Repr

/-- A task record as persisted in the all_tasks blob (after stamping):
projectPrefix and ticketKey are always present. -/
structure StoredTask where
  id : Nat
  ticketNumber : Nat
  title : String
  projectId : Option String
  project : String
  status : String
  assigneeId : Option String
  assignee : String
  dueDate : Option String
  createdAt : String
  updatedAt : String
  url : String
  projectPrefix : String
  ticketKey : String
  deleted : Bool
deriving DecidableEq, Repr

/-- The object spread of a stored task back into the working task map
(...existingTask): every field is carried over. -/
def StoredTask.toTask (t : StoredTask) : Task :=
  { id := t.id, ticketNumber := t.ticketNumber, title := t.title,
    projectId := t.projectId, project := t.project, status := t.status,
    assigneeId := t.assigneeId, assignee := t.assignee, dueDate := t.dueDate,
    createdAt := t.createdAt, updatedAt := t.updatedAt, url := t.url,
    projectPrefix := some t.projectPrefix, ticketKey := some t.ticketKey,
    deleted := t.deleted }

/-! ## External API Paginator (fetchTasksWithFilter) -/

/-- One entry of the included side array of a page response. -/
inductive IncludedItem where
  | people (id : String) (name email : Option String)
  | projects (id : String) (name : String)
  | workflowStatuses (id : String) (name : String)
deriving DecidableEq, Repr

/-- One entry of the data array of a page response, with its relationship
ids flattened (relationships.X.data.id, absent links as none). -/
structure ApiTask where
  id : Nat
  number : Nat
  title : String
  due_date : Option String
  created_at : String
  updated_at : String
  workflow_status_name : Option String
  assigneeId : Option String
  projectId : Option String
  statusId : Option String
deriving DecidableEq, Repr

/-- A parsed successful page response; hasNext models !!data.links?.next. -/
structure Page where
  data : List ApiTask
  included : List IncludedItem
  hasNext : Bool
deriving DecidableEq, Repr

/-- The network response for one page request: either a parsed page or a
non-success HTTP response with its status code and body text. -/
inductive PageResp where
  | ok (page : Page)
  | err (status : Nat) (body : String)

/-- The thrown Error of a failed sync, carrying the response status and
body (the source throws new Error with the message API error status: body). -/
structure ApiError where
  status : Nat
  body : String
deriving DecidableEq, Repr

/-- The accumulating state of the two fetch phases. -/
structure FetchState where
  taskMap : List (Nat × Task)
  allProjects : List (String × Project)
  allStatuses : List String
  allAssignees : List (String × String)
deriving Repr

def initFetchState : FetchState := ⟨[], [], [], []⟩

/-- The (data.included || []).forEach of one page: build the page-local
peopleMap, projectMap and statusMap while extending the global assignee and
project tables. -/
def foldIncluded (items : List IncludedItem) (st : FetchState) :
    List (String × String) × List (String × String) × List (String × String) × FetchState :=
  items.foldl
    (fun acc item =>
      let peopleMap := acc.1
      let projectMap := acc.2.1
      let statusMap := acc.2.2.1
      let st := acc.2.2.2
      match item with
      | .people id name email =>
        let nm := jsOrS name (jsOrS email "Unknown")
        (jsMapSet peopleMap id nm, projectMap, statusMap,
          { st with allAssignees := jsMapSet st.allAssignees id nm })
      | .projects id name =>
        (peopleMap, jsMapSet projectMap id name, statusMap,
          { st with allProjects := jsMapSet st.allProjects id ⟨id, name⟩ })
      | .workflowStatuses id name =>
        (peopleMap, projectMap, jsMapSet statusMap id name, st))
    ([], [], [], st)

/-- assigneeId || null: an empty string id is stored as null. -/
def jsNullIfFalsy : Option String → Option String
  | some "" => none
  | x => x

/-- The task record built from one data entry (lines 776-790 of the
source). -/
def buildTask (orgId orgSlug : String)
    (peopleMap projectMap statusMap : List (String × String)) (t : ApiTask) : Task :=
  { id := t.id
    ticketNumber := t.number
    title := t.title
    projectId := t.projectId
    project := jsOrS (lookupOptKey projectMap t.projectId) "No Project"
    status := jsOrS (lookupOptKey statusMap t.statusId) (jsOrS t.workflow_status_name "Unknown")
    assigneeId := jsNullIfFalsy t.assigneeId
    assignee := jsOrS (lookupOptKey peopleMap t.assigneeId) "Unassigned"
    dueDate := t.due_date
    createdAt := t.created_at
    updatedAt := t.updated_at
    url := "https://app.productive.io/" ++ orgId ++ "-" ++ orgSlug ++ "/tasks/task/"
      ++ decRepr t.id
    projectPrefix := none
    ticketKey := none
    deleted := false }

/-- The (for task of data.data) loop: skip ids already in the task map,
record the status, insert the built record. -/
def processTasks (orgId orgSlug : String)
    (peopleMap projectMap statusMap : List (String × String))
    (tasks : List ApiTask) (st : FetchState) : FetchState :=
  tasks.foldl
    (fun st t =>
      if containsKey st.taskMap t.id then st
      else
        let task := buildTask orgId orgSlug peopleMap projectMap statusMap t
        { st with
          allStatuses := jsSetAdd st.allStatuses task.status
          taskMap := jsMapSet st.taskMap t.id task })
    st

/-- Processing of one fetched page. -/
def processPage (orgId orgSlug : String) (page : Page) (st : FetchState) : FetchState :=
  let folded := foldIncluded page.included st
  processTasks orgId orgSlug folded.1 folded.2.1 folded.2.2.1 page.data folded.2.2.2

/-- The pagination loop of fetchTasksWithFilter: while (hasMore and
page <= 25), fetch the page, throw on a non-success response, process,
follow the next link. The fuel 25 is exactly the page cap. -/
def fetchLoop (responses : Nat → PageResp) (orgId orgSlug : String) :
    Nat → Nat → FetchState → Except ApiError FetchState
  | 0, _, st => .ok st
  | fuel + 1, page, st =>
    match responses page with
    | .err status body => .error ⟨status, body⟩
    | .ok pg =>
      let st₁ := processPage orgId orgSlug pg st
      if pg.hasNext then fetchLoop responses orgId orgSlug fuel (page + 1) st₁
      else .ok st₁

/-- The inputs of one updateTaskDatabase pass: the resolved identity, the
prior persisted task list, the network (one response per page number and
filter dimension), and the wall clock reading used for last_updated. -/
structure UpdateInput where
  orgId : String
  orgSlug : String
  personId : String
  existingTasks : List StoredTask
  subscriberPages : Nat → PageResp
  assigneePages : Nat → PageResp
  now : String

/-- The two fetch phases (filter subscriber_id, then filter assignee_id),
run only when personId is truthy, as in the source. -/
def runFetch (inp : UpdateInput) : Except ApiError FetchState :=
  if inp.personId = "" then .ok initFetchState
  else
    match fetchLoop inp.subscriberPages inp.orgId inp.orgSlug 25 1 initFetchState with
    | .error e => .error e
    | .ok st₁ => fetchLoop inp.assigneePages inp.orgId inp.orgSlug 25 1 st₁

/-! ## Reconciliation (tombstones, stamping, change detection, snapshot) -/

/-- The carried-forward form of a prior task absent from the fetch: spread,
status preserved for an already tombstoned record and Unknown otherwise,
and the tombstone flag set. -/
def tombstoneTask (et : StoredTask) : Task :=
  { et.toTask with
    status := if et.deleted then et.status else "Unknown"
    deleted := true }

/-- new Map(existingTasks.map(t => [t.id, t])). -/
def mkTasksMap (l : List StoredTask) : List (Nat × StoredTask) :=
  l.foldl (fun m t => jsMapSet m t.id t) []

/-- The tombstone pass (lines 817-828): every prior id absent from the
fetched map is carried forward as a tombstone, and Unknown is recorded as a
seen status. -/
def tombstonePass (priorMap : List (Nat × StoredTask)) (tm : List (Nat × Task))
    (statuses : List String) : List (Nat × Task) × List String :=
  priorMap.foldl
    (fun acc e =>
      if containsKey acc.1 e.1 then acc
      else (jsMapSet acc.1 e.1 (tombstoneTask e.2), jsSetAdd acc.2 "Unknown"))
    (tm, statuses)

/-- The prefix stamping of one task (lines 836-840):
prefixMap[task.projectId] || task.projectPrefix || UNKN, and
ticketKey = prefix-ticketNumber. -/
def stampTask (prefixMap : List (String × String)) (t : Task) : StoredTask :=
  let pfx := jsOrS (lookupOptKey prefixMap t.projectId) (jsOrS t.projectPrefix "UNKN")
  { id := t.id, ticketNumber := t.ticketNumber, title := t.title,
    projectId := t.projectId, project := t.project, status := t.status,
    assigneeId := t.assigneeId, assignee := t.assignee, dueDate := t.dueDate,
    createdAt := t.createdAt, updatedAt := t.updatedAt, url := t.url,
    projectPrefix := pfx, ticketKey := pfx ++ "-" ++ decRepr t.ticketNumber,
    deleted := t.deleted }

/-- new Map(existingTasks.map(t => [t.id, t.updatedAt])). -/
def existingUpdatedAtMap (l : List StoredTask) : List (Nat × String) :=
  l.foldl (fun m t => jsMapSet m t.id t.updatedAt) []

/-- The change detection loop (lines 853-872), returning
(changedTaskIds, newTaskIds, updatedTaskIds) in push order. The lookup
result is tested with JS truthiness, so a prior empty-string updatedAt
classifies like a missing id. -/
def detectChanges (existingTasks : List StoredTask) (allTasks : List StoredTask) :
    List Nat × List Nat × List Nat :=
  let exMap := existingUpdatedAtMap existingTasks
  allTasks.foldl
    (fun acc task =>
      if task.deleted then acc
      else
        match lookupKey exMap task.id with
        | none => (acc.1 ++ [task.id], acc.2.1 ++ [task.id], acc.2.2)
        | some v =>
          if v = "" then (acc.1 ++ [task.id], acc.2.1 ++ [task.id], acc.2.2)
          else if v ≠ task.updatedAt then (acc.1 ++ [task.id], acc.2.1, acc.2.2 ++ [task.id])
          else acc)
    ([], [], [])

/-- One entry of the filter_projects blob; the source field prefix is
called pfx here. -/
structure ProjectOption where
  id : String
  name : String
  pfx : String
deriving DecidableEq, Repr

/-- Everything one successful updateTaskDatabase pass writes to KV (each
field one blob) together with the returned summary counts. -/
structure Snapshot where
  all_tasks : List StoredTask
  prefix_map : List (String × String)
  prefix_index : List (String × String)
  last_updated : String
  task_count : Nat
  assigned_count : Nat
  changed_task_ids : List Nat
  new_task_ids : List Nat
  updated_task_ids : List Nat
  filter_statuses : List String
  filter_assignees : List (String × String)
  filter_projects : List ProjectOption
  current_person_id : String
  activeCount : Nat
  deletedCount : Nat
  projectCount : Nat
deriving Repr

/-- The post-fetch half of updateTaskDatabase (lines 817-909): tombstone
pass, sort by descending id, prefix generation and stamping, change
detection, filter caches, counts. -/
def buildSnapshot (inp : UpdateInput) (st : FetchState) : Snapshot :=
  let existingTasksMap := mkTasksMap inp.existingTasks
  let merged := tombstonePass existingTasksMap st.taskMap st.allStatuses
  let allTasksPre := jsSortBy (fun a b : Task => decide (b.id ≤ a.id)) (merged.1.map Prod.snd)
  let tables := generateAllPrefixes (st.allProjects.map Prod.snd)
  let all_tasks := allTasksPre.map (stampTask tables.prefixMap)
  let changes := detectChanges inp.existingTasks all_tasks
  { all_tasks := all_tasks
    prefix_map := tables.prefixMap
    prefix_index := tables.prefixIndex
    last_updated := inp.now
    task_count := all_tasks.length
    assigned_count := (all_tasks.filter
      (fun t => decide (t.assigneeId = some inp.personId) && !t.deleted)).length
    changed_task_ids := changes.1
    new_task_ids := changes.2.1
    updated_task_ids := changes.2.2
    filter_statuses := jsSortBy strLe merged.2
    filter_assignees := jsSortBy (fun a b => strLe a.2 b.2) st.allAssignees
    filter_projects := jsSortBy (fun a b : ProjectOption => strLe a.name b.name)
      (st.allProjects.map (fun e =>
        ⟨e.2.id, e.2.name, jsOrS (lookupKey tables.prefixMap e.2.id) "UNKN"⟩))
    current_person_id := inp.personId
    activeCount := (all_tasks.filter (fun t => !t.deleted)).length
    deletedCount := (all_tasks.filter (fun t => t.deleted)).length
    projectCount := st.allProjects.length }

/-- updateTaskDatabase(env): fetch both filter dimensions, then build and
persist the snapshot; a paginator error propagates and nothing is
persisted. -/
def updateTaskDatabase (inp : UpdateInput) : Except ApiError Snapshot :=
  match runFetch inp with
  | .error e => .error e
  | .ok st => .ok (buildSnapshot inp st)

end BetterProductive

namespace BetterProductive

/-! ## Map construction lemmas -/

theorem map_fst_jsMapSet {κ α : Type} [DecidableEq κ] (m : List (κ × α)) (k : κ) (v : α) :
    (jsMapSet m k v).map Prod.fst =
      if k ∈ m.map Prod.fst then m.map Prod.fst else m.map Prod.fst ++ [k] := by
  induction m with
  | nil => simp [jsMapSet]
  | cons e t ih =>
    obtain ⟨k₁, v₁⟩ := e
    rw [jsMapSet]
    by_cases h1 : k₁ = k
    · subst h1
      simp
    · rw [if_neg h1]
      simp only [List.map_cons, List.mem_cons]
      by_cases h2 : k ∈ t.map Prod.fst
      · rw [if_pos (Or.inr h2)]
        rw [ih, if_pos h2]
      · rw [if_neg (by intro h; rcases h with h | h; exact h1 h.symm; exact h2 h)]
        rw [ih, if_neg h2, List.cons_append]

theorem nodup_keys_jsMapSet {κ α : Type} [DecidableEq κ] (m : List (κ × α)) (k : κ) (v : α)
    (h : (m.map Prod.fst).Nodup) : ((jsMapSet m k v).map Prod.fst).Nodup := by
  rw [map_fst_jsMapSet]
  by_cases h1 : k ∈ m.map Prod.fst
  · rw [if_pos h1]; exact h
  · rw [if_neg h1]
    exact List.Nodup.append h (List.nodup_singleton k)
      (by intro x hx hy; rw [List.mem_singleton] at hy; rw [hy] at hx; exact h1 hx)

theorem mem_jsMapSet {κ α : Type} [DecidableEq κ] (m : List (κ × α)) (k : κ) (v : α)
    (e : κ × α) (h : e ∈ jsMapSet m k v) : e ∈ m ∨ e = (k, v) := by
  induction m with
  | nil =>
    simp only [jsMapSet, List.mem_singleton] at h
    exact Or.inr h
  | cons e₁ t ih =>
    obtain ⟨k₁, v₁⟩ := e₁
    rw [jsMapSet] at h
    by_cases h1 : k₁ = k
    · rw [if_pos h1] at h
      rcases List.mem_cons.mp h with h2 | h2
      · exact Or.inr h2
      · exact Or.inl (List.mem_cons_of_mem _ h2)
    · rw [if_neg h1] at h
      rcases List.mem_cons.mp h with h2 | h2
      · exact Or.inl (h2 ▸ List.mem_cons_self _ _)
      · rcases ih h2 with h3 | h3
        · exact Or.inl (List.mem_cons_of_mem _ h3)
        · exact Or.inr h3

theorem key_mem_foldl_jsMapSet {κ α : Type} [DecidableEq κ] (f : α → κ) :
    ∀ (l : List α) (acc : List (κ × α)) (k : κ), k ∈ acc.map Prod.fst →
      k ∈ (l.foldl (fun m t => jsMapSet m (f t) t) acc).map Prod.fst := by
  intro l
  induction l with
  | nil => intro acc k h; exact h
  | cons t rest ih =>
    intro acc k h
    rw [List.foldl_cons]
    apply ih
    rw [map_fst_jsMapSet]
    by_cases h1 : f t ∈ acc.map Prod.fst
    · rw [if_pos h1]; exact h
    · rw [if_neg h1]; exact List.mem_append.mpr (Or.inl h)

theorem mkTasksMap_nodup_keys (l : List StoredTask) :
    ((mkTasksMap l).map Prod.fst).Nodup := by
  rw [mkTasksMap]
  have : ∀ (l : List StoredTask) (acc : List (Nat × StoredTask)),
      (acc.map Prod.fst).Nodup →
      ((l.foldl (fun m t => jsMapSet m t.id t) acc).map Prod.fst).Nodup := by
    intro l
    induction l with
    | nil => intro acc h; exact h
    | cons t rest ih =>
      intro acc h
      rw [List.foldl_cons]
      exact ih _ (nodup_keys_jsMapSet acc t.id t h)
  exact this l [] (by simp)

theorem mkTasksMap_entries (l : List StoredTask) :
    ∀ e ∈ mkTasksMap l, e.2.id = e.1 ∧ e.2 ∈ l := by
  rw [mkTasksMap]
  have : ∀ (l : List StoredTask) (acc : List (Nat × StoredTask)),
      ∀ e ∈ l.foldl (fun m t => jsMapSet m t.id t) acc,
        e ∈ acc ∨ (e.2.id = e.1 ∧ e.2 ∈ l) := by
    intro l
    induction l with
    | nil => intro acc e h; exact Or.inl h
    | cons t rest ih =>
      intro acc e h
      rw [List.foldl_cons] at h
      rcases ih _ e h with h1 | h1
      · rcases mem_jsMapSet acc t.id t e h1 with h2 | h2
        · exact Or.inl h2
        · right
          rw [h2]
          exact ⟨rfl, List.mem_cons_self t rest⟩
      · exact Or.inr ⟨h1.1, List.mem_cons_of_mem t h1.2⟩
  intro e h
  rcases this l [] e h with h1 | h1
  · simp at h1
  · exact h1

theorem mkTasksMap_lookup (l : List StoredTask) (i : Nat) (t : StoredTask)
    (h : lookupKey (mkTasksMap l) i = some t) : t.id = i ∧ t ∈ l := by
  have hmem := (lookupKey_eq_some_mem _ _ _ h).1
  have := mkTasksMap_entries l (i, t) hmem
  exact this

theorem mkTasksMap_complete (l : List StoredTask) (t : StoredTask) (h : t ∈ l) :
    t.id ∈ (mkTasksMap l).map Prod.fst := by
  rw [mkTasksMap]
  have : ∀ (l : List StoredTask) (acc : List (Nat × StoredTask)), t ∈ l →
      t.id ∈ (l.foldl (fun m t => jsMapSet m t.id t) acc).map Prod.fst := by
    intro l
    induction l with
    | nil => intro acc h; simp at h
    | cons u rest ih =>
      intro acc h
      rw [List.foldl_cons]
      rcases List.mem_cons.mp h with h1 | h1
      · subst h1
        apply key_mem_foldl_jsMapSet
        rw [map_fst_jsMapSet]
        by_cases h2 : t.id ∈ acc.map Prod.fst
        · rw [if_pos h2]; exact h2
        · rw [if_neg h2]
          exact List.mem_append.mpr (Or.inr (List.mem_singleton.mpr rfl))
      · exact ih _ h1
  exact this l [] h

theorem existingUpdatedAtMap_lookup (l : List StoredTask) (i : Nat) (v : String)
    (h : lookupKey (existingUpdatedAtMap l) i = some v) :
    ∃ t ∈ l, t.id = i ∧ t.updatedAt = v := by
  rw [existingUpdatedAtMap] at h
  have : ∀ (l : List StoredTask) (acc : List (Nat × String)),
      ∀ e ∈ l.foldl (fun m t => jsMapSet m t.id t.updatedAt) acc,
        e ∈ acc ∨ ∃ t ∈ l, t.id = e.1 ∧ t.updatedAt = e.2 := by
    intro l
    induction l with
    | nil => intro acc e h; exact Or.inl h
    | cons t rest ih =>
      intro acc e h
      rw [List.foldl_cons] at h
      rcases ih _ e h with h1 | h1
      · rcases mem_jsMapSet acc t.id t.updatedAt e h1 with h2 | h2
        · exact Or.inl h2
        · right
          exact ⟨t, List.mem_cons_self t rest, by rw [h2], by rw [h2]⟩
      · obtain ⟨u, hu, h2, h3⟩ := h1
        exact Or.inr ⟨u, List.mem_cons_of_mem t hu, h2, h3⟩
  have hmem := (lookupKey_eq_some_mem _ _ _ h).1
  rcases this l [] (i, v) hmem with h1 | h1
  · simp at h1
  · exact h1

theorem existingUpdatedAtMap_complete (l : List StoredTask) (t : StoredTask) (h : t ∈ l) :
    t.id ∈ (existingUpdatedAtMap l).map Prod.fst := by
  rw [existingUpdatedAtMap]
  have : ∀ (l : List StoredTask) (acc : List (Nat × String)), t ∈ l →
      t.id ∈ (l.foldl (fun m t => jsMapSet m t.id t.updatedAt) acc).map Prod.fst := by
    intro l
    induction l with
    | nil => intro acc h; simp at h
    | cons u rest ih =>
      intro acc h
      rw [List.foldl_cons]
      rcases List.mem_cons.mp h with h1 | h1
      · subst h1
        have : ∀ (l : List StoredTask) (acc : List (Nat × String)) (k : Nat),
            k ∈ acc.map Prod.fst →
            k ∈ (l.foldl (fun m t => jsMapSet m t.id t.updatedAt) acc).map Prod.fst := by
          intro l
          induction l with
          | nil => intro acc k h; exact h
          | cons w rest₂ ih₂ =>
            intro acc k h
            rw [List.foldl_cons]
            apply ih₂
            rw [map_fst_jsMapSet]
            by_cases h2 : w.id ∈ acc.map Prod.fst
            · rw [if_pos h2]; exact h
            · rw [if_neg h2]; exact List.mem_append.mpr (Or.inl h)
        apply this
        rw [map_fst_jsMapSet]
        by_cases h2 : t.id ∈ acc.map Prod.fst
        · rw [if_pos h2]; exact h2
        · rw [if_neg h2]
          exact List.mem_append.mpr (Or.inr (List.mem_singleton.mpr rfl))
      · exact ih _ h1
  exact this l [] h

end BetterProductive

namespace BetterProductive

/-! ## Invariants of the fetch phases -/

/-- Shape of the fetched task map: ids are the keys and every record is a
fresh, unstamped, non-tombstoned fetch result. -/
def TaskMapInv (m : List (Nat × Task)) : Prop :=
  (m.map Prod.fst).Nodup ∧
  ∀ e ∈ m, e.2.id = e.1 ∧ e.2.deleted = false ∧
    e.2.projectPrefix = none ∧ e.2.ticketKey = none

theorem foldIncluded_taskMap (items : List IncludedItem) (st : FetchState) :
    (foldIncluded items st).2.2.2.taskMap = st.taskMap := by
  rw [foldIncluded]
  have : ∀ (items : List IncludedItem)
      (acc : List (String × String) × List (String × String) ×
        List (String × String) × FetchState),
      (items.foldl (fun acc item =>
        let peopleMap := acc.1
        let projectMap := acc.2.1
        let statusMap := acc.2.2.1
        let st := acc.2.2.2
        match item with
        | .people id name email =>
          let nm := jsOrS name (jsOrS email "Unknown")
          (jsMapSet peopleMap id nm, projectMap, statusMap,
            { st with allAssignees := jsMapSet st.allAssignees id nm })
        | .projects id name =>
          (peopleMap, jsMapSet projectMap id name, statusMap,
            { st with allProjects := jsMapSet st.allProjects id ⟨id, name⟩ })
        | .workflowStatuses id name =>
          (peopleMap, projectMap, jsMapSet statusMap id name, st)) acc).2.2.2.taskMap =
        acc.2.2.2.taskMap := by
    intro items
    induction items with
    | nil => intro acc; rfl
    | cons item rest ih =>
      intro acc
      rw [List.foldl_cons]
      rw [ih]
      obtain ⟨p₁, p₂, p₃, s⟩ := acc
      cases item <;> rfl
  exact this items ([], [], [], st)

theorem processTasks_inv (orgId orgSlug : String)
    (peopleMap projectMap statusMap : List (String × String)) :
    ∀ (tasks : List ApiTask) (st : FetchState), TaskMapInv st.taskMap →
      TaskMapInv (processTasks orgId orgSlug peopleMap projectMap statusMap tasks st).taskMap := by
  intro tasks
  induction tasks with
  | nil => intro st h; exact h
  | cons t rest ih =>
    intro st h
    rw [processTasks, List.foldl_cons]
    by_cases hc : containsKey st.taskMap t.id = true
    · rw [if_pos hc]
      exact ih st h
    · rw [if_neg hc]
      apply ih
      constructor
      · apply nodup_keys_jsMapSet
        exact h.1
      · intro e he
        rcases mem_jsMapSet _ _ _ e he with h1 | h1
        · exact h.2 e h1
        · rw [h1]
          exact ⟨rfl, rfl, rfl, rfl⟩

theorem processPage_inv (orgId orgSlug : String) (page : Page) (st : FetchState)
    (h : TaskMapInv st.taskMap) : TaskMapInv (processPage orgId orgSlug page st).taskMap := by
  rw [processPage]
  apply processTasks_inv
  rw [foldIncluded_taskMap]
  exact h

theorem fetchLoop_inv (responses : Nat → PageResp) (orgId orgSlug : String) :
    ∀ (fuel page : Nat) (st st' : FetchState), TaskMapInv st.taskMap →
      fetchLoop responses orgId orgSlug fuel page st = .ok st' →
      TaskMapInv st'.taskMap := by
  intro fuel
  induction fuel with
  | zero =>
    intro page st st' h heq
    rw [fetchLoop] at heq
    cases heq
    exact h
  | succ fuel ih =>
    intro page st st' h heq
    rcases hresp : responses page with pg | ⟨status, body⟩
    · rw [fetchLoop] at heq
      simp only [hresp] at heq
      by_cases hnext : pg.hasNext = true
      · rw [if_pos hnext] at heq
        exact ih (page + 1) _ st' (processPage_inv orgId orgSlug pg st h) heq
      · rw [if_neg hnext] at heq
        cases heq
        exact processPage_inv orgId orgSlug pg st h
    · rw [fetchLoop] at heq
      simp only [hresp] at heq
      exact Except.noConfusion heq

theorem runFetch_inv (inp : UpdateInput) (st : FetchState)
    (h : runFetch inp = .ok st) : TaskMapInv st.taskMap := by
  rw [runFetch] at h
  by_cases hp : inp.personId = ""
  · rw [if_pos hp] at h
    cases h
    exact ⟨List.nodup_nil, by intro e he; simp [initFetchState] at he⟩
  · rw [if_neg hp] at h
    rcases h1 : fetchLoop inp.subscriberPages inp.orgId inp.orgSlug 25 1 initFetchState
      with e | st₁
    · rw [h1] at h
      cases h
    · rw [h1] at h
      have hinit : TaskMapInv initFetchState.taskMap :=
        ⟨List.nodup_nil, by intro e he; simp [initFetchState] at he⟩
      exact fetchLoop_inv inp.assigneePages inp.orgId inp.orgSlug 25 1 st₁ st
        (fetchLoop_inv inp.subscriberPages inp.orgId inp.orgSlug 25 1 initFetchState st₁
          hinit h1) h

/-! ## Tombstone pass characterization -/

theorem tombstonePass_lookup_kept (priorMap : List (Nat × StoredTask)) :
    ∀ (tm : List (Nat × Task)) (statuses : List String) (i : Nat) (v : Task),
      lookupKey tm i = some v →
      lookupKey (tombstonePass priorMap tm statuses).1 i = some v := by
  induction priorMap with
  | nil => intro tm statuses i v h; exact h
  | cons e rest ih =>
    intro tm statuses i v h
    rw [tombstonePass, List.foldl_cons]
    by_cases hc : containsKey tm e.1 = true
    · rw [if_pos hc]
      exact ih tm statuses i v h
    · rw [if_neg hc]
      apply ih
      rw [lookupKey_jsMapSet]
      by_cases he : e.1 = i
      · exfalso
        rw [he] at hc
        rw [containsKey, h] at hc
        exact hc rfl
      · rw [if_neg he]
        exact h

theorem tombstonePass_lookup_absent (priorMap : List (Nat × StoredTask))
    (hnd : (priorMap.map Prod.fst).Nodup) :
    ∀ (tm : List (Nat × Task)) (statuses : List String) (i : Nat),
      lookupKey tm i = none →
      lookupKey (tombstonePass priorMap tm statuses).1 i =
        (lookupKey priorMap i).map tombstoneTask := by
  induction priorMap with
  | nil => intro tm statuses i h; simpa [tombstonePass, lookupKey]
  | cons e rest ih =>
    intro tm statuses i h
    rw [List.map_cons, List.nodup_cons] at hnd
    rw [tombstonePass, List.foldl_cons]
    by_cases hei : e.1 = i
    · have hc : containsKey tm e.1 = false := by
        rw [containsKey, hei, h]
        rfl
      rw [if_neg (by rw [hc]; exact Bool.false_ne_true)]
      have hlu : lookupKey (jsMapSet tm e.1 (tombstoneTask e.2)) i =
          some (tombstoneTask e.2) := by
        rw [lookupKey_jsMapSet, if_pos hei]
      have := tombstonePass_lookup_kept rest (jsMapSet tm e.1 (tombstoneTask e.2))
        (jsSetAdd statuses "Unknown") i (tombstoneTask e.2) hlu
      rw [show tombstonePass rest (jsMapSet tm e.1 (tombstoneTask e.2))
          (jsSetAdd statuses "Unknown") =
          List.foldl (fun acc e =>
            if containsKey acc.1 e.1 = true then acc
            else (jsMapSet acc.1 e.1 (tombstoneTask e.2), jsSetAdd acc.2 "Unknown")) 
            (jsMapSet tm e.1 (tombstoneTask e.2), jsSetAdd statuses "Unknown") rest
        from rfl] at this
      rw [this]
      rw [lookupKey, if_pos hei]
      rfl
    · rw [lookupKey, if_neg hei]
      by_cases hc : containsKey tm e.1 = true
      · rw [if_pos hc]
        exact ih hnd.2 tm statuses i h
      · rw [if_neg hc]
        apply ih hnd.2
        rw [lookupKey_jsMapSet, if_neg hei]
        exact h

theorem tombstonePass_nodup_keys (priorMap : List (Nat × StoredTask)) :
    ∀ (tm : List (Nat × Task)) (statuses : List String),
      ((tm.map Prod.fst).Nodup) →
      (((tombstonePass priorMap tm statuses).1.map Prod.fst).Nodup) := by
  induction priorMap with
  | nil => intro tm statuses h; exact h
  | cons e rest ih =>
    intro tm statuses h
    rw [tombstonePass, List.foldl_cons]
    by_cases hc : containsKey tm e.1 = true
    · rw [if_pos hc]
      exact ih tm statuses h
    · rw [if_neg hc]
      exact ih _ _ (nodup_keys_jsMapSet tm e.1 (tombstoneTask e.2) h)

theorem tombstonePass_entries (priorMap : List (Nat × StoredTask))
    (hpr : ∀ e ∈ priorMap, e.2.id = e.1) :
    ∀ (tm : List (Nat × Task)) (statuses : List String),
      (∀ e ∈ tm, e.2.id = e.1) →
      ∀ e ∈ (tombstonePass priorMap tm statuses).1, e.2.id = e.1 := by
  induction priorMap with
  | nil => intro tm statuses h e he; exact h e he
  | cons p rest ih =>
    intro tm statuses h e he
    rw [tombstonePass, List.foldl_cons] at he
    have hpr' : ∀ e ∈ rest, e.2.id = e.1 := fun e he => hpr e (List.mem_cons_of_mem p he)
    by_cases hc : containsKey tm p.1 = true
    · rw [if_pos hc] at he
      exact ih hpr' tm statuses h e he
    · rw [if_neg hc] at he
      refine ih hpr' _ _ ?_ e he
      intro e₁ he₁
      rcases mem_jsMapSet _ _ _ e₁ he₁ with h1 | h1
      · exact h e₁ h1
      · rw [h1]
        have := hpr p (List.mem_cons_self p rest)
        simp only [tombstoneTask, StoredTask.toTask]
        exact this

end BetterProductive

namespace BetterProductive

/-! ## C6: a non-success response aborts the pass and nothing is written -/

theorem fetchLoop_error_source (responses : Nat → PageResp) (orgId orgSlug : String) :
    ∀ (fuel page : Nat) (st : FetchState) (e : ApiError),
      fetchLoop responses orgId orgSlug fuel page st = .error e →
      ∃ p, responses p = .err e.status e.body := by
  intro fuel
  induction fuel with
  | zero =>
    intro page st e heq
    rw [fetchLoop] at heq
    exact Except.noConfusion heq
  | succ fuel ih =>
    intro page st e heq
    rcases hresp : responses page with pg | ⟨status, body⟩
    · rw [fetchLoop] at heq
      simp only [hresp] at heq
      by_cases hnext : pg.hasNext = true
      · rw [if_pos hnext] at heq
        exact ih (page + 1) _ e heq
      · rw [if_neg hnext] at heq
        exact Except.noConfusion heq
    · rw [fetchLoop] at heq
      simp only [hresp] at heq
      have he : e = ⟨status, body⟩ := (Except.error.injEq .. ▸ heq).symm
      exact ⟨page, by rw [hresp, he]⟩

/-- C6: if the paginator hits a non-success HTTP response during either
filter pass, updateTaskDatabase results in exactly that thrown error, the
error carries the status and body of an actually received response, and no
Snapshot (so none of the snapshot blobs: task list, prefix maps,
filter-option lists, change-set id lists, counts, last-sync timestamp) is
produced in that pass - the prior persisted snapshot is untouched in this
model, where the writes of a pass are the fields of a returned Snapshot. -/
theorem C6_error_aborts_without_writes (inp : UpdateInput) (e : ApiError)
    (h : runFetch inp = .error e) :
    updateTaskDatabase inp = .error e ∧
    (∀ s : Snapshot, updateTaskDatabase inp ≠ .ok s) ∧
    ∃ p, inp.subscriberPages p = .err e.status e.body ∨
      inp.assigneePages p = .err e.status e.body := by
  refine ⟨by rw [updateTaskDatabase, h], ?_, ?_⟩
  · intro s hs
    rw [updateTaskDatabase, h] at hs
    exact Except.noConfusion hs
  · rw [runFetch] at h
    by_cases hp : inp.personId = ""
    · rw [if_pos hp] at h
      exact Except.noConfusion h
    · rw [if_neg hp] at h
      rcases h1 : fetchLoop inp.subscriberPages inp.orgId inp.orgSlug 25 1 initFetchState
        with e₁ | st₁
      · rw [h1] at h
        have he : e₁ = e := Except.error.injEq .. ▸ h
        obtain ⟨p, hp₁⟩ := fetchLoop_error_source inp.subscriberPages inp.orgId inp.orgSlug
          25 1 initFetchState e₁ h1
        exact ⟨p, Or.inl (by rw [← he]; exact hp₁)⟩
      · rw [h1] at h
        obtain ⟨p, hp₁⟩ := fetchLoop_error_source inp.assigneePages inp.orgId inp.orgSlug
          25 1 st₁ e h
        exact ⟨p, Or.inr hp₁⟩

/-- A concrete failing pass: the first subscriber page answers 500. -/
def failingInput : UpdateInput :=
  { orgId := "1", orgSlug := "org", personId := "77", existingTasks := [],
    subscriberPages := fun _ => .err 500 "boom",
    assigneePages := fun _ => .ok ⟨[], [], false⟩, now := "2024-01-01T00:00:00Z" }

theorem C6_witness :
    updateTaskDatabase failingInput = .error ⟨500, "boom"⟩ ∧
    (∀ s : Snapshot, updateTaskDatabase failingInput ≠ .ok s) ∧
    ∃ p, failingInput.subscriberPages p = .err (500 : Nat) "boom" ∨
      failingInput.assigneePages p = .err (500 : Nat) "boom" :=
  C6_error_aborts_without_writes failingInput ⟨500, "boom"⟩ rfl

end BetterProductive

namespace BetterProductive

/-! ## Shape of the persisted task list -/

theorem stampTask_id (pm : List (String × String)) (t : Task) :
    (stampTask pm t).id = t.id := rfl

theorem buildSnapshot_all_tasks_eq (inp : UpdateInput) (st : FetchState) :
    (buildSnapshot inp st).all_tasks =
      (jsSortBy (fun a b : Task => decide (b.id ≤ a.id))
        ((tombstonePass (mkTasksMap inp.existingTasks) st.taskMap st.allStatuses).1.map
          Prod.snd)).map
        (stampTask (generateAllPrefixes (st.allProjects.map Prod.snd)).prefixMap) := rfl

theorem mem_buildSnapshot_all_tasks (inp : UpdateInput) (st : FetchState) (u : StoredTask) :
    u ∈ (buildSnapshot inp st).all_tasks ↔
      ∃ pre ∈ (tombstonePass (mkTasksMap inp.existingTasks) st.taskMap st.allStatuses).1.map
        Prod.snd,
        u = stampTask (generateAllPrefixes (st.allProjects.map Prod.snd)).prefixMap pre := by
  rw [buildSnapshot_all_tasks_eq, List.mem_map]
  constructor
  · intro h
    obtain ⟨pre, hmem, heq⟩ := h
    exact ⟨pre, (jsSortBy_perm _ _).mem_iff.mp hmem, heq.symm⟩
  · intro h
    obtain ⟨pre, hmem, heq⟩ := h
    exact ⟨pre, (jsSortBy_perm _ _).mem_iff.mpr hmem, heq.symm⟩

theorem map_id_values : ∀ m : List (Nat × Task), (∀ e ∈ m, e.2.id = e.1) →
    (m.map Prod.snd).map Task.id = m.map Prod.fst := by
  intro m
  induction m with
  | nil => intro _; rfl
  | cons e t ih =>
    intro h
    simp only [List.map_cons]
    rw [ih (fun e₁ he₁ => h e₁ (List.mem_cons_of_mem e he₁)),
      h e (List.mem_cons_self e t)]

theorem values_lookup_iff (m : List (Nat × Task)) (hnd : (m.map Prod.fst).Nodup)
    (hid : ∀ e ∈ m, e.2.id = e.1) (u : Task) :
    u ∈ m.map Prod.snd ↔ lookupKey m u.id = some u := by
  constructor
  · intro h
    rcases List.mem_map.mp h with ⟨e, he, heq⟩
    have hide := hid e he
    rw [← heq, hide]
    apply mem_lookupKey_of_nodup _ _ _ hnd
    rw [show (e.1, e.2) = e from rfl]
    exact he
  · intro h
    have hmem := (lookupKey_eq_some_mem _ _ _ h).1
    exact List.mem_map.mpr ⟨(u.id, u), hmem, rfl⟩

/-- The merged (post tombstone pass) map keeps id-keyed entries with
pairwise distinct keys whenever the fetch succeeded. -/
theorem merged_inv (inp : UpdateInput) (st : FetchState)
    (hfetch : runFetch inp = .ok st) :
    (((tombstonePass (mkTasksMap inp.existingTasks) st.taskMap st.allStatuses).1.map
      Prod.fst).Nodup) ∧
    (∀ e ∈ (tombstonePass (mkTasksMap inp.existingTasks) st.taskMap st.allStatuses).1,
      e.2.id = e.1) := by
  have hinv := runFetch_inv inp st hfetch
  constructor
  · exact tombstonePass_nodup_keys _ _ _ hinv.1
  · apply tombstonePass_entries
    · intro e he
      exact (mkTasksMap_entries inp.existingTasks e he).1
    · intro e he
      exact (hinv.2 e he).1

theorem all_tasks_ids_nodup (inp : UpdateInput) (st : FetchState)
    (hfetch : runFetch inp = .ok st) :
    ((buildSnapshot inp st).all_tasks.map StoredTask.id).Nodup := by
  obtain ⟨hnd, hid⟩ := merged_inv inp st hfetch
  rw [buildSnapshot_all_tasks_eq]
  rw [List.map_map]
  have h1 : (StoredTask.id ∘ stampTask
      (generateAllPrefixes (st.allProjects.map Prod.snd)).prefixMap) = Task.id := rfl
  rw [h1]
  have hperm := (jsSortBy_perm (fun a b : Task => decide (b.id ≤ a.id))
    ((tombstonePass (mkTasksMap inp.existingTasks) st.taskMap st.allStatuses).1.map
      Prod.snd)).map Task.id
  rw [hperm.nodup_iff, map_id_values _ hid]
  exact hnd

theorem all_tasks_unique_id (inp : UpdateInput) (st : FetchState)
    (hfetch : runFetch inp = .ok st) (u v : StoredTask)
    (hu : u ∈ (buildSnapshot inp st).all_tasks) (hv : v ∈ (buildSnapshot inp st).all_tasks)
    (h : u.id = v.id) : u = v :=
  List.inj_on_of_nodup_map (all_tasks_ids_nodup inp st hfetch) hu hv h

end BetterProductive

namespace BetterProductive

/-! ## C2: the tombstone pass -/

/-- C2 (amended): a prior task id absent from the fetched map is carried
forward exactly once, tombstoned (deleted = true), with status Unknown
unless it was already tombstoned (then the status is preserved), and with
every field other than status, deleted, projectPrefix and ticketKey equal
to its prior value. projectPrefix and ticketKey are re-stamped like every
task: the freshly generated prefix of its project when that project is in
the new prefix map, otherwise the prior (nonempty) projectPrefix, otherwise
UNKN, with ticketKey rebuilt as prefix-ticketNumber. The original claim's
"every other field unchanged" fails exactly on those two stamped fields. -/
theorem C2_tombstone_carries_forward (inp : UpdateInput) (st : FetchState)
    (tid : Nat) (et : StoredTask)
    (hfetch : runFetch inp = .ok st)
    (hprior : lookupKey (mkTasksMap inp.existingTasks) tid = some et)
    (habs : lookupKey st.taskMap tid = none) :
    updateTaskDatabase inp = .ok (buildSnapshot inp st) ∧
    ∃ u ∈ (buildSnapshot inp st).all_tasks,
      u.id = tid ∧ u.deleted = true ∧
      u.status = (if et.deleted then et.status else "Unknown") ∧
      u.ticketNumber = et.ticketNumber ∧ u.title = et.title ∧
      u.projectId = et.projectId ∧ u.project = et.project ∧
      u.assigneeId = et.assigneeId ∧ u.assignee = et.assignee ∧
      u.dueDate = et.dueDate ∧ u.createdAt = et.createdAt ∧
      u.updatedAt = et.updatedAt ∧ u.url = et.url ∧
      u.projectPrefix = jsOrS
        (lookupOptKey (generateAllPrefixes (st.allProjects.map Prod.snd)).prefixMap
          et.projectId)
        (jsOrS (some et.projectPrefix) "UNKN") ∧
      u.ticketKey = u.projectPrefix ++ "-" ++ decRepr et.ticketNumber ∧
      (∀ v ∈ (buildSnapshot inp st).all_tasks, v.id = tid → v = u) := by
  have hupdate : updateTaskDatabase inp = .ok (buildSnapshot inp st) := by
    rw [updateTaskDatabase, hfetch]
  refine ⟨hupdate, ?_⟩
  have hmerged : lookupKey
      (tombstonePass (mkTasksMap inp.existingTasks) st.taskMap st.allStatuses).1 tid =
      some (tombstoneTask et) := by
    rw [tombstonePass_lookup_absent (mkTasksMap inp.existingTasks)
      (mkTasksMap_nodup_keys inp.existingTasks) st.taskMap st.allStatuses tid habs,
      hprior]
    rfl
  have hid : et.id = tid := (mkTasksMap_lookup inp.existingTasks tid et hprior).1
  have hpre : tombstoneTask et ∈
      (tombstonePass (mkTasksMap inp.existingTasks) st.taskMap st.allStatuses).1.map
        Prod.snd :=
    List.mem_map.mpr ⟨(tid, tombstoneTask et), (lookupKey_eq_some_mem _ _ _ hmerged).1, rfl⟩
  set pm := (generateAllPrefixes (st.allProjects.map Prod.snd)).prefixMap with hpm
  refine ⟨stampTask pm (tombstoneTask et),
    (mem_buildSnapshot_all_tasks inp st _).mpr ⟨tombstoneTask et, hpre, rfl⟩,
    ?_, rfl, rfl, rfl, rfl, rfl, rfl, rfl, rfl, rfl, rfl, rfl, rfl, rfl, rfl, ?_⟩
  · simp only [stampTask, tombstoneTask, StoredTask.toTask]
    exact hid
  · intro v hv hvid
    apply all_tasks_unique_id inp st hfetch v _ hv
      ((mem_buildSnapshot_all_tasks inp st _).mpr ⟨tombstoneTask et, hpre, rfl⟩)
    rw [hvid]
    simp only [stampTask, tombstoneTask, StoredTask.toTask]
    exact hid.symm

/-- A concrete prior task whose projectPrefix the next sync re-stamps. -/
def priorTaskC2 : StoredTask :=
  { id := 1, ticketNumber := 7, title := "t", projectId := some "10",
    project := "Old", status := "Open", assigneeId := none,
    assignee := "Unassigned", dueDate := none, createdAt := "c",
    updatedAt := "u1", url := "u", projectPrefix := "ZZZZ",
    ticketKey := "ZZZZ-7", deleted := false }

/-- A sync whose fetch returns no tasks but whose included side data still
names project 10 (now called Alpha), so the fresh prefix map maps project
10 to ALPH. -/
def inputC2 : UpdateInput :=
  { orgId := "1", orgSlug := "org", personId := "77",
    existingTasks := [priorTaskC2],
    subscriberPages := fun _ => .ok ⟨[], [IncludedItem.projects "10" "Alpha"], false⟩,
    assigneePages := fun _ => .ok ⟨[], [], false⟩,
    now := "2024-01-01T00:00:00Z" }

/-- Counterexample to C2 as stated: the tombstoned task reappears in the
new snapshot with deleted = true and status Unknown, but its projectPrefix
changed from ZZZZ to the freshly generated ALPH (and its ticketKey from
ZZZZ-7 to ALPH-7), so not every other field kept its prior value. -/
theorem C2_counterexample :
    (updateTaskDatabase inputC2).map
      (fun s => s.all_tasks.map
        (fun u => (u.id, u.deleted, u.status, u.projectPrefix, u.ticketKey))) =
      .ok [(1, true, "Unknown", "ALPH", "ALPH-7")] ∧
    priorTaskC2.projectPrefix = "ZZZZ" ∧ priorTaskC2.ticketKey = "ZZZZ-7" ∧
    ("ALPH" : String) ≠ "ZZZZ" := by
  refine ⟨rfl, rfl, rfl, by decide⟩

theorem C2_witness :
    updateTaskDatabase inputC2 =
      .ok (buildSnapshot inputC2 ⟨[], [("10", ⟨"10", "Alpha"⟩)], [], []⟩) :=
  (C2_tombstone_carries_forward inputC2 ⟨[], [("10", ⟨"10", "Alpha"⟩)], [], []⟩
    1 priorTaskC2 rfl rfl rfl).1

end BetterProductive

namespace BetterProductive

/-! ## C9: tombstoning is reversible on reappearance -/

/-- C9: a task id that is tombstoned in the prior snapshot but present in
the fresh fetch results appears in the new snapshot exactly once, with
deleted = false and every fetch-level field (including status, which
replaces the stored Unknown) taken from the freshly fetched record. -/
theorem C9_tombstone_reversible (inp : UpdateInput) (st : FetchState)
    (tid : Nat) (et : StoredTask) (f : Task)
    (hfetch : runFetch inp = .ok st)
    (hprior : lookupKey (mkTasksMap inp.existingTasks) tid = some et)
    (htomb : et.deleted = true) (hunk : et.status = "Unknown")
    (hfound : lookupKey st.taskMap tid = some f) :
    updateTaskDatabase inp = .ok (buildSnapshot inp st) ∧
    ∃ u ∈ (buildSnapshot inp st).all_tasks,
      u.id = tid ∧ u.deleted = false ∧
      u.ticketNumber = f.ticketNumber ∧ u.title = f.title ∧
      u.projectId = f.projectId ∧ u.project = f.project ∧
      u.status = f.status ∧ u.assigneeId = f.assigneeId ∧
      u.assignee = f.assignee ∧ u.dueDate = f.dueDate ∧
      u.createdAt = f.createdAt ∧ u.updatedAt = f.updatedAt ∧ u.url = f.url ∧
      (∀ v ∈ (buildSnapshot inp st).all_tasks, v.id = tid → v = u) := by
  have hupdate : updateTaskDatabase inp = .ok (buildSnapshot inp st) := by
    rw [updateTaskDatabase, hfetch]
  refine ⟨hupdate, ?_⟩
  have hinv := runFetch_inv inp st hfetch
  have hfmem := (lookupKey_eq_some_mem _ _ _ hfound).1
  have hfprops := hinv.2 (tid, f) hfmem
  have hfid : f.id = tid := hfprops.1
  have hfdel : f.deleted = false := hfprops.2.1
  have hmerged : lookupKey
      (tombstonePass (mkTasksMap inp.existingTasks) st.taskMap st.allStatuses).1 tid =
      some f :=
    tombstonePass_lookup_kept (mkTasksMap inp.existingTasks) st.taskMap st.allStatuses
      tid f hfound
  have hpre : f ∈
      (tombstonePass (mkTasksMap inp.existingTasks) st.taskMap st.allStatuses).1.map
        Prod.snd :=
    List.mem_map.mpr ⟨(tid, f), (lookupKey_eq_some_mem _ _ _ hmerged).1, rfl⟩
  set pm := (generateAllPrefixes (st.allProjects.map Prod.snd)).prefixMap with hpm
  refine ⟨stampTask pm f,
    (mem_buildSnapshot_all_tasks inp st _).mpr ⟨f, hpre, rfl⟩,
    hfid, hfdel, rfl, rfl, rfl, rfl, rfl, rfl, rfl, rfl, rfl, rfl, rfl, ?_⟩
  intro v hv hvid
  apply all_tasks_unique_id inp st hfetch v _ hv
    ((mem_buildSnapshot_all_tasks inp st _).mpr ⟨f, hpre, rfl⟩)
  rw [hvid, stampTask_id, hfid]

/-- A prior snapshot holding a tombstoned task 3 of project 10 which the
fresh fetch returns again (status In Progress). -/
def priorTaskC9 : StoredTask :=
  { id := 3, ticketNumber := 9, title := "old title", projectId := some "10",
    project := "Alpha", status := "Unknown", assigneeId := none,
    assignee := "Unassigned", dueDate := none, createdAt := "c",
    updatedAt := "u1", url := "u", projectPrefix := "ALPH",
    ticketKey := "ALPH-9", deleted := true }

def apiTaskC9 : ApiTask :=
  { id := 3, number := 9, title := "new title", due_date := none,
    created_at := "c", updated_at := "u2", workflow_status_name := none,
    assigneeId := none, projectId := some "10",
    statusId := some "s1" }

def inputC9 : UpdateInput :=
  { orgId := "1", orgSlug := "org", personId := "77",
    existingTasks := [priorTaskC9],
    subscriberPages := fun _ => .ok
      ⟨[apiTaskC9],
       [IncludedItem.projects "10" "Alpha", IncludedItem.workflowStatuses "s1" "In Progress"],
       false⟩,
    assigneePages := fun _ => .ok ⟨[], [], false⟩,
    now := "2024-01-01T00:00:00Z" }

theorem C9_witness :
    updateTaskDatabase inputC9 =
      .ok (buildSnapshot inputC9
        ⟨[(3, { id := 3, ticketNumber := 9, title := "new title",
                projectId := some "10", project := "Alpha", status := "In Progress",
                assigneeId := none, assignee := "Unassigned", dueDate := none,
                createdAt := "c", updatedAt := "u2",
                url := "https://app.productive.io/1-org/tasks/task/3",
                projectPrefix := none, ticketKey := none, deleted := false })],
         [("10", ⟨"10", "Alpha"⟩)], ["In Progress"], []⟩) :=
  (C9_tombstone_reversible inputC9
    ⟨[(3, { id := 3, ticketNumber := 9, title := "new title",
            projectId := some "10", project := "Alpha", status := "In Progress",
            assigneeId := none, assignee := "Unassigned", dueDate := none,
            createdAt := "c", updatedAt := "u2",
            url := "https://app.productive.io/1-org/tasks/task/3",
            projectPrefix := none, ticketKey := none, deleted := false })],
     [("10", ⟨"10", "Alpha"⟩)], ["In Progress"], []⟩
    3 priorTaskC9
    { id := 3, ticketNumber := 9, title := "new title",
      projectId := some "10", project := "Alpha", status := "In Progress",
      assigneeId := none, assignee := "Unassigned", dueDate := none,
      createdAt := "c", updatedAt := "u2",
      url := "https://app.productive.io/1-org/tasks/task/3",
      projectPrefix := none, ticketKey := none, deleted := false }
    rfl rfl rfl rfl rfl).1

end BetterProductive

namespace BetterProductive

/-! ## C8: prefix stamping of every persisted task -/

/-- C8: after a successful sync every persisted task carries
ticketKey = projectPrefix, hyphen, ticketNumber, and its projectPrefix is
the freshly generated prefix of its projectId when the current prefix map
has a (nonempty) entry for it; otherwise the projectPrefix stored for that
task id in the prior snapshot when that is nonempty (which happens exactly
for carried-forward tombstones, fresh records having no stored prefix);
otherwise the literal UNKN. Nothing makes ticketKey unique: several tasks
can share the UNKN prefix. -/
theorem C8_stamping_invariant (inp : UpdateInput) (st : FetchState)
    (hfetch : runFetch inp = .ok st) :
    updateTaskDatabase inp = .ok (buildSnapshot inp st) ∧
    ∀ u ∈ (buildSnapshot inp st).all_tasks,
      u.ticketKey = u.projectPrefix ++ "-" ++ decRepr u.ticketNumber ∧
      ((∃ q, lookupOptKey (buildSnapshot inp st).prefix_map u.projectId = some q ∧
          q ≠ "" ∧ u.projectPrefix = q) ∨
        ((lookupOptKey (buildSnapshot inp st).prefix_map u.projectId = none ∨
          lookupOptKey (buildSnapshot inp st).prefix_map u.projectId = some "") ∧
          ∃ et ∈ inp.existingTasks, et.id = u.id ∧ et.projectPrefix ≠ "" ∧
            u.projectPrefix = et.projectPrefix) ∨
        ((lookupOptKey (buildSnapshot inp st).prefix_map u.projectId = none ∨
          lookupOptKey (buildSnapshot inp st).prefix_map u.projectId = some "") ∧
          u.projectPrefix = "UNKN")) := by
  have hupdate : updateTaskDatabase inp = .ok (buildSnapshot inp st) := by
    rw [updateTaskDatabase, hfetch]
  refine ⟨hupdate, ?_⟩
  intro u hu
  obtain ⟨pre, hpre, hueq⟩ := (mem_buildSnapshot_all_tasks inp st u).mp hu
  set pm := (generateAllPrefixes (st.allProjects.map Prod.snd)).prefixMap with hpm
  have hpmeq : (buildSnapshot inp st).prefix_map = pm := rfl
  have hkey : u.ticketKey = u.projectPrefix ++ "-" ++ decRepr u.ticketNumber := by
    rw [hueq]
    rfl
  refine ⟨hkey, ?_⟩
  have hprojid : u.projectId = pre.projectId := by rw [hueq]; rfl
  have huid : u.id = pre.id := by rw [hueq]; rfl
  have hupfx : u.projectPrefix =
      jsOrS (lookupOptKey pm pre.projectId) (jsOrS pre.projectPrefix "UNKN") := by
    rw [hueq]
    rfl
  -- where the pre-stamp record came from determines its stored prefix
  have hsource : pre.projectPrefix = none ∨
      ∃ et ∈ inp.existingTasks, et.id = pre.id ∧ pre.projectPrefix = some et.projectPrefix := by
    obtain ⟨hnd, hid⟩ := merged_inv inp st hfetch
    have hlook : lookupKey
        (tombstonePass (mkTasksMap inp.existingTasks) st.taskMap st.allStatuses).1 pre.id =
        some pre := (values_lookup_iff _ hnd hid pre).mp hpre
    rcases hmap : lookupKey st.taskMap pre.id with _ | v
    · rw [tombstonePass_lookup_absent (mkTasksMap inp.existingTasks)
        (mkTasksMap_nodup_keys inp.existingTasks) st.taskMap st.allStatuses pre.id hmap]
        at hlook
      rcases hpl : lookupKey (mkTasksMap inp.existingTasks) pre.id with _ | et
      · rw [hpl] at hlook
        exact Option.noConfusion hlook
      · rw [hpl] at hlook
        have hpre_eq : pre = tombstoneTask et := by
          have := Option.some.injEq .. ▸ hlook
          exact this.symm
        right
        obtain ⟨hetid, hetmem⟩ := mkTasksMap_lookup inp.existingTasks pre.id et hpl
        refine ⟨et, hetmem, ?_, ?_⟩
        · rw [hetid]
        · rw [hpre_eq]
          rfl
    · have := tombstonePass_lookup_kept (mkTasksMap inp.existingTasks) st.taskMap
        st.allStatuses pre.id v hmap
      rw [this] at hlook
      have hveq : v = pre := Option.some.injEq .. ▸ hlook
      left
      have hmem := (lookupKey_eq_some_mem _ _ _ hmap).1
      have := (runFetch_inv inp st hfetch).2 (pre.id, v) hmem
      rw [← hveq]
      exact this.2.2.1
  rw [hpmeq, hprojid]
  rcases hlo : lookupOptKey pm pre.projectId with _ | q
  · -- no fresh prefix for the project
    rcases hsource with hnone | ⟨et, hetmem, hetid, hetpfx⟩
    · right; right
      refine ⟨Or.inl rfl, ?_⟩
      rw [hupfx, hlo, hnone]
      rfl
    · by_cases hq : et.projectPrefix = ""
      · right; right
        refine ⟨Or.inl rfl, ?_⟩
        rw [hupfx, hlo, hetpfx]
        simp [jsOrS, hq]
      · right; left
        refine ⟨Or.inl rfl, et, hetmem, by rw [huid, hetid], hq, ?_⟩
        rw [hupfx, hlo, hetpfx]
        simp [jsOrS, hq]
  · by_cases hq : q = ""
    · subst hq
      rcases hsource with hnone | ⟨et, hetmem, hetid, hetpfx⟩
      · right; right
        refine ⟨Or.inr rfl, ?_⟩
        rw [hupfx, hlo, hnone]
        rfl
      · by_cases hq₁ : et.projectPrefix = ""
        · right; right
          refine ⟨Or.inr rfl, ?_⟩
          rw [hupfx, hlo, hetpfx]
          simp [jsOrS, hq₁]
        · right; left
          refine ⟨Or.inr rfl, et, hetmem, by rw [huid, hetid], hq₁, ?_⟩
          rw [hupfx, hlo, hetpfx]
          simp [jsOrS, hq₁]
    · left
      refine ⟨q, rfl, hq, ?_⟩
      rw [hupfx, hlo]
      simp [jsOrS, hq]

theorem C8_witness :
    updateTaskDatabase inputC2 =
      .ok (buildSnapshot inputC2 ⟨[], [("10", ⟨"10", "Alpha"⟩)], [], []⟩) :=
  (C8_stamping_invariant inputC2 ⟨[], [("10", ⟨"10", "Alpha"⟩)], [], []⟩ rfl).1

end BetterProductive

namespace BetterProductive

/-! ## C3: change detection -/

/-- The classification the loop body of detectChanges applies to one
non-tombstoned task, under JS truthiness of the looked-up prior value. -/
def IsNewCond (exMap : List (Nat × String)) (u : StoredTask) : Prop :=
  u.deleted = false ∧
    (lookupKey exMap u.id = none ∨ lookupKey exMap u.id = some "")

def IsUpdCond (exMap : List (Nat × String)) (u : StoredTask) : Prop :=
  u.deleted = false ∧
    ∃ v, lookupKey exMap u.id = some v ∧ v ≠ "" ∧ v ≠ u.updatedAt

theorem detectChanges_aux (exMap : List (Nat × String)) :
    ∀ (l : List StoredTask) (acc : List Nat × List Nat × List Nat),
      (∀ x, x ∈ (l.foldl
          (fun acc task =>
            if task.deleted then acc
            else
              match lookupKey exMap task.id with
              | none => (acc.1 ++ [task.id], acc.2.1 ++ [task.id], acc.2.2)
              | some v =>
                if v = "" then (acc.1 ++ [task.id], acc.2.1 ++ [task.id], acc.2.2)
                else if v ≠ task.updatedAt then
                  (acc.1 ++ [task.id], acc.2.1, acc.2.2 ++ [task.id])
                else acc) acc).2.1 ↔
        x ∈ acc.2.1 ∨ ∃ u ∈ l, IsNewCond exMap u ∧ u.id = x) ∧
      (∀ x, x ∈ (l.foldl
          (fun acc task =>
            if task.deleted then acc
            else
              match lookupKey exMap task.id with
              | none => (acc.1 ++ [task.id], acc.2.1 ++ [task.id], acc.2.2)
              | some v =>
                if v = "" then (acc.1 ++ [task.id], acc.2.1 ++ [task.id], acc.2.2)
                else if v ≠ task.updatedAt then
                  (acc.1 ++ [task.id], acc.2.1, acc.2.2 ++ [task.id])
                else acc) acc).2.2 ↔
        x ∈ acc.2.2 ∨ ∃ u ∈ l, IsUpdCond exMap u ∧ u.id = x) ∧
      (∀ x, x ∈ (l.foldl
          (fun acc task =>
            if task.deleted then acc
            else
              match lookupKey exMap task.id with
              | none => (acc.1 ++ [task.id], acc.2.1 ++ [task.id], acc.2.2)
              | some v =>
                if v = "" then (acc.1 ++ [task.id], acc.2.1 ++ [task.id], acc.2.2)
                else if v ≠ task.updatedAt then
                  (acc.1 ++ [task.id], acc.2.1, acc.2.2 ++ [task.id])
                else acc) acc).1 ↔
        x ∈ acc.1 ∨ ∃ u ∈ l, (IsNewCond exMap u ∨ IsUpdCond exMap u) ∧ u.id = x) := by
  intro l
  induction l with
  | nil =>
    intro acc
    refine ⟨?_, ?_, ?_⟩ <;> intro x <;> simp
  | cons u rest ih =>
    intro acc
    simp only [List.foldl_cons]
    by_cases hdel : u.deleted = true
    · rw [if_pos hdel]
      obtain ⟨ih1, ih2, ih3⟩ := ih acc
      have hnotnew : ¬IsNewCond exMap u := by
        intro h
        rw [h.1] at hdel
        exact Bool.false_ne_true hdel
      have hnotupd : ¬IsUpdCond exMap u := by
        intro h
        rw [h.1] at hdel
        exact Bool.false_ne_true hdel
      refine ⟨?_, ?_, ?_⟩ <;> intro x
      · rw [ih1 x]
        constructor
        · rintro (h | ⟨w, hw, hc, hx⟩)
          · exact Or.inl h
          · exact Or.inr ⟨w, List.mem_cons_of_mem u hw, hc, hx⟩
        · rintro (h | ⟨w, hw, hc, hx⟩)
          · exact Or.inl h
          · rcases List.mem_cons.mp hw with h1 | h1
            · exact absurd (h1 ▸ hc) hnotnew
            · exact Or.inr ⟨w, h1, hc, hx⟩
      · rw [ih2 x]
        constructor
        · rintro (h | ⟨w, hw, hc, hx⟩)
          · exact Or.inl h
          · exact Or.inr ⟨w, List.mem_cons_of_mem u hw, hc, hx⟩
        · rintro (h | ⟨w, hw, hc, hx⟩)
          · exact Or.inl h
          · rcases List.mem_cons.mp hw with h1 | h1
            · exact absurd (h1 ▸ hc) hnotupd
            · exact Or.inr ⟨w, h1, hc, hx⟩
      · rw [ih3 x]
        constructor
        · rintro (h | ⟨w, hw, hc, hx⟩)
          · exact Or.inl h
          · exact Or.inr ⟨w, List.mem_cons_of_mem u hw, hc, hx⟩
        · rintro (h | ⟨w, hw, hc, hx⟩)
          · exact Or.inl h
          · rcases List.mem_cons.mp hw with h1 | h1
            · rcases h1 ▸ hc with hc₁ | hc₁
              · exact absurd hc₁ hnotnew
              · exact absurd hc₁ hnotupd
            · exact Or.inr ⟨w, h1, hc, hx⟩
    · rw [if_neg hdel]
      have hdelf : u.deleted = false := Bool.eq_false_iff.mpr hdel
      rcases hlook : lookupKey exMap u.id with _ | v
      · -- new: no prior entry
        simp only [hlook]
        obtain ⟨ih1, ih2, ih3⟩ := ih (acc.1 ++ [u.id], acc.2.1 ++ [u.id], acc.2.2)
        have hnew : IsNewCond exMap u := ⟨hdelf, Or.inl hlook⟩
        have hnotupd : ¬IsUpdCond exMap u := by
          rintro ⟨_, v, hv, _, _⟩
          rw [hlook] at hv
          exact Option.noConfusion hv
        refine ⟨?_, ?_, ?_⟩ <;> intro x
        · rw [ih1 x]
          simp only [List.mem_append, List.mem_singleton]
          constructor
          · rintro ((h | h) | ⟨w, hw, hc, hx⟩)
            · exact Or.inl h
            · exact Or.inr ⟨u, List.mem_cons_self u rest, hnew, h.symm⟩
            · exact Or.inr ⟨w, List.mem_cons_of_mem u hw, hc, hx⟩
          · rintro (h | ⟨w, hw, hc, hx⟩)
            · exact Or.inl (Or.inl h)
            · rcases List.mem_cons.mp hw with h1 | h1
              · exact Or.inl (Or.inr (by rw [← hx, h1]))
              · exact Or.inr ⟨w, h1, hc, hx⟩
        · rw [ih2 x]
          constructor
          · rintro (h | ⟨w, hw, hc, hx⟩)
            · exact Or.inl h
            · exact Or.inr ⟨w, List.mem_cons_of_mem u hw, hc, hx⟩
          · rintro (h | ⟨w, hw, hc, hx⟩)
            · exact Or.inl h
            · rcases List.mem_cons.mp hw with h1 | h1
              · exact absurd (h1 ▸ hc) hnotupd
              · exact Or.inr ⟨w, h1, hc, hx⟩
        · rw [ih3 x]
          simp only [List.mem_append, List.mem_singleton]
          constructor
          · rintro ((h | h) | ⟨w, hw, hc, hx⟩)
            · exact Or.inl h
            · exact Or.inr ⟨u, List.mem_cons_self u rest, Or.inl hnew, h.symm⟩
            · exact Or.inr ⟨w, List.mem_cons_of_mem u hw, hc, hx⟩
          · rintro (h | ⟨w, hw, hc, hx⟩)
            · exact Or.inl (Or.inl h)
            · rcases List.mem_cons.mp hw with h1 | h1
              · exact Or.inl (Or.inr (by rw [← hx, h1]))
              · exact Or.inr ⟨w, h1, hc, hx⟩
      · simp only [hlook]
        by_cases hv0 : v = ""
        · -- falsy prior value: classified as new
          rw [if_pos hv0]
          obtain ⟨ih1, ih2, ih3⟩ := ih (acc.1 ++ [u.id], acc.2.1 ++ [u.id], acc.2.2)
          have hnew : IsNewCond exMap u := ⟨hdelf, Or.inr (by rw [hlook, hv0])⟩
          have hnotupd : ¬IsUpdCond exMap u := by
            rintro ⟨_, w, hw, hw0, _⟩
            rw [hlook] at hw
            have : v = w := Option.some.injEq .. ▸ hw
            rw [← this] at hw0
            exact hw0 hv0
          refine ⟨?_, ?_, ?_⟩ <;> intro x
          · rw [ih1 x]
            simp only [List.mem_append, List.mem_singleton]
            constructor
            · rintro ((h | h) | ⟨w, hw, hc, hx⟩)
              · exact Or.inl h
              · exact Or.inr ⟨u, List.mem_cons_self u rest, hnew, h.symm⟩
              · exact Or.inr ⟨w, List.mem_cons_of_mem u hw, hc, hx⟩
            · rintro (h | ⟨w, hw, hc, hx⟩)
              · exact Or.inl (Or.inl h)
              · rcases List.mem_cons.mp hw with h1 | h1
                · exact Or.inl (Or.inr (by rw [← hx, h1]))
                · exact Or.inr ⟨w, h1, hc, hx⟩
          · rw [ih2 x]
            constructor
            · rintro (h | ⟨w, hw, hc, hx⟩)
              · exact Or.inl h
              · exact Or.inr ⟨w, List.mem_cons_of_mem u hw, hc, hx⟩
            · rintro (h | ⟨w, hw, hc, hx⟩)
              · exact Or.inl h
              · rcases List.mem_cons.mp hw with h1 | h1
                · exact absurd (h1 ▸ hc) hnotupd
                · exact Or.inr ⟨w, h1, hc, hx⟩
          · rw [ih3 x]
            simp only [List.mem_append, List.mem_singleton]
            constructor
            · rintro ((h | h) | ⟨w, hw, hc, hx⟩)
              · exact Or.inl h
              · exact Or.inr ⟨u, List.mem_cons_self u rest, Or.inl hnew, h.symm⟩
              · exact Or.inr ⟨w, List.mem_cons_of_mem u hw, hc, hx⟩
            · rintro (h | ⟨w, hw, hc, hx⟩)
              · exact Or.inl (Or.inl h)
              · rcases List.mem_cons.mp hw with h1 | h1
                · exact Or.inl (Or.inr (by rw [← hx, h1]))
                · exact Or.inr ⟨w, h1, hc, hx⟩
        · rw [if_neg hv0]
          by_cases hvu : v ≠ u.updatedAt
          · -- updated
            rw [if_pos hvu]
            obtain ⟨ih1, ih2, ih3⟩ := ih (acc.1 ++ [u.id], acc.2.1, acc.2.2 ++ [u.id])
            have hupd : IsUpdCond exMap u := ⟨hdelf, v, hlook, hv0, hvu⟩
            have hnotnew : ¬IsNewCond exMap u := by
              rintro ⟨_, h | h⟩
              · rw [hlook] at h
                exact Option.noConfusion h
              · rw [hlook] at h
                have : v = "" := Option.some.injEq .. ▸ h
                exact hv0 this
            refine ⟨?_, ?_, ?_⟩ <;> intro x
            · rw [ih1 x]
              constructor
              · rintro (h | ⟨w, hw, hc, hx⟩)
                · exact Or.inl h
                · exact Or.inr ⟨w, List.mem_cons_of_mem u hw, hc, hx⟩
              · rintro (h | ⟨w, hw, hc, hx⟩)
                · exact Or.inl h
                · rcases List.mem_cons.mp hw with h1 | h1
                  · exact absurd (h1 ▸ hc) hnotnew
                  · exact Or.inr ⟨w, h1, hc, hx⟩
            · rw [ih2 x]
              simp only [List.mem_append, List.mem_singleton]
              constructor
              · rintro ((h | h) | ⟨w, hw, hc, hx⟩)
                · exact Or.inl h
                · exact Or.inr ⟨u, List.mem_cons_self u rest, hupd, h.symm⟩
                · exact Or.inr ⟨w, List.mem_cons_of_mem u hw, hc, hx⟩
              · rintro (h | ⟨w, hw, hc, hx⟩)
                · exact Or.inl (Or.inl h)
                · rcases List.mem_cons.mp hw with h1 | h1
                  · exact Or.inl (Or.inr (by rw [← hx, h1]))
                  · exact Or.inr ⟨w, h1, hc, hx⟩
            · rw [ih3 x]
              simp only [List.mem_append, List.mem_singleton]
              constructor
              · rintro ((h | h) | ⟨w, hw, hc, hx⟩)
                · exact Or.inl h
                · exact Or.inr ⟨u, List.mem_cons_self u rest, Or.inr hupd, h.symm⟩
                · exact Or.inr ⟨w, List.mem_cons_of_mem u hw, hc, hx⟩
              · rintro (h | ⟨w, hw, hc, hx⟩)
                · exact Or.inl (Or.inl h)
                · rcases List.mem_cons.mp hw with h1 | h1
                  · exact Or.inl (Or.inr (by rw [← hx, h1]))
                  · exact Or.inr ⟨w, h1, hc, hx⟩
          · -- unchanged
            rw [if_neg hvu]
            push_neg at hvu
            obtain ⟨ih1, ih2, ih3⟩ := ih acc
            have hnotnew : ¬IsNewCond exMap u := by
              rintro ⟨_, h | h⟩
              · rw [hlook] at h
                exact Option.noConfusion h
              · rw [hlook] at h
                have : v = "" := Option.some.injEq .. ▸ h
                exact hv0 this
            have hnotupd : ¬IsUpdCond exMap u := by
              rintro ⟨_, w, hw, _, hwu⟩
              rw [hlook] at hw
              have : v = w := Option.some.injEq .. ▸ hw
              rw [← this] at hwu
              exact hwu hvu
            refine ⟨?_, ?_, ?_⟩ <;> intro x
            · rw [ih1 x]
              constructor
              · rintro (h | ⟨w, hw, hc, hx⟩)
                · exact Or.inl h
                · exact Or.inr ⟨w, List.mem_cons_of_mem u hw, hc, hx⟩
              · rintro (h | ⟨w, hw, hc, hx⟩)
                · exact Or.inl h
                · rcases List.mem_cons.mp hw with h1 | h1
                  · exact absurd (h1 ▸ hc) hnotnew
                  · exact Or.inr ⟨w, h1, hc, hx⟩
            · rw [ih2 x]
              constructor
              · rintro (h | ⟨w, hw, hc, hx⟩)
                · exact Or.inl h
                · exact Or.inr ⟨w, List.mem_cons_of_mem u hw, hc, hx⟩
              · rintro (h | ⟨w, hw, hc, hx⟩)
                · exact Or.inl h
                · rcases List.mem_cons.mp hw with h1 | h1
                  · exact absurd (h1 ▸ hc) hnotupd
                  · exact Or.inr ⟨w, h1, hc, hx⟩
            · rw [ih3 x]
              constructor
              · rintro (h | ⟨w, hw, hc, hx⟩)
                · exact Or.inl h
                · exact Or.inr ⟨w, List.mem_cons_of_mem u hw, hc, hx⟩
              · rintro (h | ⟨w, hw, hc, hx⟩)
                · exact Or.inl h
                · rcases List.mem_cons.mp hw with h1 | h1
                  · rcases h1 ▸ hc with hc₁ | hc₁
                    · exact absurd hc₁ hnotnew
                    · exact absurd hc₁ hnotupd
                  · exact Or.inr ⟨w, h1, hc, hx⟩

theorem detectChanges_spec (ex : List StoredTask) (allTasks : List StoredTask) :
    (∀ x, x ∈ (detectChanges ex allTasks).2.1 ↔
      ∃ u ∈ allTasks, IsNewCond (existingUpdatedAtMap ex) u ∧ u.id = x) ∧
    (∀ x, x ∈ (detectChanges ex allTasks).2.2 ↔
      ∃ u ∈ allTasks, IsUpdCond (existingUpdatedAtMap ex) u ∧ u.id = x) ∧
    (∀ x, x ∈ (detectChanges ex allTasks).1 ↔
      ∃ u ∈ allTasks,
        (IsNewCond (existingUpdatedAtMap ex) u ∨ IsUpdCond (existingUpdatedAtMap ex) u) ∧
        u.id = x) := by
  obtain ⟨h1, h2, h3⟩ := detectChanges_aux (existingUpdatedAtMap ex) allTasks ([], [], [])
  refine ⟨?_, ?_, ?_⟩ <;> intro x
  · rw [show (detectChanges ex allTasks).2.1 =
      (allTasks.foldl
        (fun acc task =>
          if task.deleted then acc
          else
            match lookupKey (existingUpdatedAtMap ex) task.id with
            | none => (acc.1 ++ [task.id], acc.2.1 ++ [task.id], acc.2.2)
            | some v =>
              if v = "" then (acc.1 ++ [task.id], acc.2.1 ++ [task.id], acc.2.2)
              else if v ≠ task.updatedAt then
                (acc.1 ++ [task.id], acc.2.1, acc.2.2 ++ [task.id])
              else acc) ([], [], [])).2.1 from rfl, h1 x]
    simp
  · rw [show (detectChanges ex allTasks).2.2 =
      (allTasks.foldl
        (fun acc task =>
          if task.deleted then acc
          else
            match lookupKey (existingUpdatedAtMap ex) task.id with
            | none => (acc.1 ++ [task.id], acc.2.1 ++ [task.id], acc.2.2)
            | some v =>
              if v = "" then (acc.1 ++ [task.id], acc.2.1 ++ [task.id], acc.2.2)
              else if v ≠ task.updatedAt then
                (acc.1 ++ [task.id], acc.2.1, acc.2.2 ++ [task.id])
              else acc) ([], [], [])).2.2 from rfl, h2 x]
    simp
  · rw [show (detectChanges ex allTasks).1 =
      (allTasks.foldl
        (fun acc task =>
          if task.deleted then acc
          else
            match lookupKey (existingUpdatedAtMap ex) task.id with
            | none => (acc.1 ++ [task.id], acc.2.1 ++ [task.id], acc.2.2)
            | some v =>
              if v = "" then (acc.1 ++ [task.id], acc.2.1 ++ [task.id], acc.2.2)
              else if v ≠ task.updatedAt then
                (acc.1 ++ [task.id], acc.2.1, acc.2.2 ++ [task.id])
              else acc) ([], [], [])).1 from rfl, h3 x]
    simp

end BetterProductive

namespace BetterProductive

/-- C3 (amended): provided every task of the prior snapshot has a nonempty
updatedAt (the loop tests the looked-up value with JS truthiness, so an
empty prior updatedAt classifies the task as new instead of updated), every
non-tombstoned task of the new snapshot is classified against the
immediately preceding snapshot only: absent prior id means membership in
new_task_ids; a present prior id with different updatedAt means membership
in updated_task_ids; identical updatedAt means membership in neither; and
changed_task_ids holds exactly the union of the two. -/
theorem C3_change_detection (inp : UpdateInput) (st : FetchState)
    (hfetch : runFetch inp = .ok st)
    (hne : ∀ t ∈ inp.existingTasks, t.updatedAt ≠ "") :
    updateTaskDatabase inp = .ok (buildSnapshot inp st) ∧
    (∀ u ∈ (buildSnapshot inp st).all_tasks, u.deleted = false →
      ((∀ t ∈ inp.existingTasks, t.id ≠ u.id) →
        u.id ∈ (buildSnapshot inp st).new_task_ids) ∧
      (∀ v, lookupKey (existingUpdatedAtMap inp.existingTasks) u.id = some v →
        v ≠ u.updatedAt → u.id ∈ (buildSnapshot inp st).updated_task_ids) ∧
      (lookupKey (existingUpdatedAtMap inp.existingTasks) u.id = some u.updatedAt →
        u.id ∉ (buildSnapshot inp st).new_task_ids ∧
        u.id ∉ (buildSnapshot inp st).updated_task_ids)) ∧
    (∀ x, x ∈ (buildSnapshot inp st).changed_task_ids ↔
      x ∈ (buildSnapshot inp st).new_task_ids ∨
        x ∈ (buildSnapshot inp st).updated_task_ids) := by
  have hupdate : updateTaskDatabase inp = .ok (buildSnapshot inp st) := by
    rw [updateTaskDatabase, hfetch]
  obtain ⟨hsp1, hsp2, hsp3⟩ := detectChanges_spec inp.existingTasks
    (buildSnapshot inp st).all_tasks
  have hnew : (buildSnapshot inp st).new_task_ids =
      (detectChanges inp.existingTasks (buildSnapshot inp st).all_tasks).2.1 := rfl
  have hupd : (buildSnapshot inp st).updated_task_ids =
      (detectChanges inp.existingTasks (buildSnapshot inp st).all_tasks).2.2 := rfl
  have hchg : (buildSnapshot inp st).changed_task_ids =
      (detectChanges inp.existingTasks (buildSnapshot inp st).all_tasks).1 := rfl
  refine ⟨hupdate, ?_, ?_⟩
  · intro u hu hud
    refine ⟨?_, ?_, ?_⟩
    · intro habsent
      rw [hnew, hsp1]
      refine ⟨u, hu, ⟨hud, Or.inl ?_⟩, rfl⟩
      rcases hl : lookupKey (existingUpdatedAtMap inp.existingTasks) u.id with _ | v
      · rfl
      · exfalso
        obtain ⟨t, ht, htid, _⟩ := existingUpdatedAtMap_lookup inp.existingTasks u.id v hl
        exact habsent t ht htid
    · intro v hv hvne
      rw [hupd, hsp2]
      refine ⟨u, hu, ⟨hud, v, hv, ?_, hvne⟩, rfl⟩
      obtain ⟨t, ht, _, htupd⟩ := existingUpdatedAtMap_lookup inp.existingTasks u.id v hv
      rw [← htupd]
      exact hne t ht
    · intro hsame
      have hune : u.updatedAt ≠ "" := by
        obtain ⟨t, ht, _, htupd⟩ := existingUpdatedAtMap_lookup inp.existingTasks u.id
          u.updatedAt hsame
        rw [← htupd]
        exact hne t ht
      constructor
      · rw [hnew, hsp1]
        rintro ⟨w, hw, ⟨_, hcond⟩, hwid⟩
        rcases hcond with hcond | hcond
        · rw [hwid, hsame] at hcond
          exact Option.noConfusion hcond
        · rw [hwid, hsame] at hcond
          have : u.updatedAt = "" := (Option.some.injEq .. ▸ hcond)
          exact hune this
      · rw [hupd, hsp2]
        rintro ⟨w, hw, ⟨_, v, hv, _, hvne⟩, hwid⟩
        have hweq : w = u := all_tasks_unique_id inp st hfetch w u hw hu hwid
        rw [hwid, hsame] at hv
        have hveq : u.updatedAt = v := Option.some.injEq .. ▸ hv
        rw [hweq] at hvne
        rw [← hveq] at hvne
        exact hvne rfl
  · intro x
    rw [hchg, hnew, hupd, hsp3, hsp1, hsp2]
    constructor
    · rintro ⟨u, hu, hc | hc, hx⟩
      · exact Or.inl ⟨u, hu, hc, hx⟩
      · exact Or.inr ⟨u, hu, hc, hx⟩
    · rintro (⟨u, hu, hc, hx⟩ | ⟨u, hu, hc, hx⟩)
      · exact ⟨u, hu, Or.inl hc, hx⟩
      · exact ⟨u, hu, Or.inr hc, hx⟩

/-- A prior task with an empty updatedAt that the fresh fetch returns with
updatedAt T2. -/
def priorTaskC3 : StoredTask :=
  { id := 5, ticketNumber := 4, title := "x", projectId := none,
    project := "No Project", status := "Open", assigneeId := none,
    assignee := "Unassigned", dueDate := none, createdAt := "c",
    updatedAt := "", url := "u", projectPrefix := "UNKN",
    ticketKey := "UNKN-4", deleted := false }

def apiTaskC3 : ApiTask :=
  { id := 5, number := 4, title := "x", due_date := none, created_at := "c",
    updated_at := "T2", workflow_status_name := none, assigneeId := none,
    projectId := none, statusId := none }

def inputC3 : UpdateInput :=
  { orgId := "1", orgSlug := "org", personId := "77",
    existingTasks := [priorTaskC3],
    subscriberPages := fun _ => .ok ⟨[apiTaskC3], [], false⟩,
    assigneePages := fun _ => .ok ⟨[], [], false⟩,
    now := "2024-01-01T00:00:00Z" }

/-- Counterexample to C3 as stated: task id 5 is present in the prior
snapshot with updatedAt "" and freshly fetched with the different
updatedAt T2, yet the pass classifies it as new, not updated (the falsy
lookup result is indistinguishable from a missing id). -/
theorem C3_counterexample :
    (updateTaskDatabase inputC3).map (fun s => (s.new_task_ids, s.updated_task_ids)) =
      .ok ([5], []) ∧
    priorTaskC3 ∈ inputC3.existingTasks ∧ priorTaskC3.id = 5 ∧
    (updateTaskDatabase inputC3).map
      (fun s => s.all_tasks.map (fun u => (u.id, u.deleted, u.updatedAt))) =
      .ok [(5, false, "T2")] ∧
    priorTaskC3.updatedAt ≠ "T2" := by
  refine ⟨rfl, List.mem_cons_self _ _, rfl, rfl, by decide⟩

theorem C3_witness :
    (∀ t ∈ inputC9.existingTasks, t.updatedAt ≠ "") ∧
    updateTaskDatabase inputC9 =
      .ok (buildSnapshot inputC9
        ⟨[(3, { id := 3, ticketNumber := 9, title := "new title",
                projectId := some "10", project := "Alpha", status := "In Progress",
                assigneeId := none, assignee := "Unassigned", dueDate := none,
                createdAt := "c", updatedAt := "u2",
                url := "https://app.productive.io/1-org/tasks/task/3",
                projectPrefix := none, ticketKey := none, deleted := false })],
         [("10", ⟨"10", "Alpha"⟩)], ["In Progress"], []⟩) :=
  ⟨by decide,
    (C3_change_detection inputC9
      ⟨[(3, { id := 3, ticketNumber := 9, title := "new title",
              projectId := some "10", project := "Alpha", status := "In Progress",
              assigneeId := none, assignee := "Unassigned", dueDate := none,
              createdAt := "c", updatedAt := "u2",
              url := "https://app.productive.io/1-org/tasks/task/3",
              projectPrefix := none, ticketKey := none, deleted := false })],
       [("10", ⟨"10", "Alpha"⟩)], ["In Progress"], []⟩
      rfl (by decide)).1⟩

end BetterProductive

namespace BetterProductive

/-! ## Search (parseSearchQuery / searchTasks) -/

/-- The result of parseSearchQuery; the source field prefix is called pfx
here. Exactly one of the three shapes occurs: text only, prefix+number, or
number only. -/
structure ParsedQuery where
  text : Option String
  pfx : Option String
  number : Option Nat
deriving DecidableEq, Repr

/-- replace(/\s+/g, space): collapse every whitespace run to one space.
The Bool argument records whether the previous character was part of a
run. -/
def collapseWsGo : List Char → Bool → List Char
  | [], _ => []
  | c :: rest, prevWs =>
    if c.isWhitespace then
      if prevWs then collapseWsGo rest true else ' ' :: collapseWsGo rest true
    else c :: collapseWsGo rest false

/-- query.trim().toLowerCase().replace(/[-_]/g, space).replace(/\s+/g, space). -/
def normalizeQuery (query : String) : String :=
  String.mk (collapseWsGo
    (((jsTrim query).data.map Char.toLower).map
      (fun c => if c = '-' ∨ c = '_' then ' ' else c)) false)

/-- normalized.match(/^([a-z]+)\s*(\d+)$/): maximal lowercase-letter run,
optional whitespace, then digits to the end. -/
def matchPrefixNumber (s : String) : Option (String × Nat) :=
  let cs := s.data
  let letters := cs.takeWhile Char.isLower
  if letters.isEmpty then none
  else
    let rest := (cs.dropWhile Char.isLower).dropWhile Char.isWhitespace
    if rest.isEmpty then none
    else if rest.all Char.isDigit then some (String.mk letters, digitsToNat rest)
    else none

/-- parseSearchQuery(query) of src/src/index.js lines 916-935. -/
def parseSearchQuery (query : String) : ParsedQuery :=
  if query = "" then { text := some "", pfx := none, number := none }
  else
    let normalized := normalizeQuery query
    match matchPrefixNumber normalized with
    | some r => { text := none, pfx := some (jsToUpper r.1), number := some r.2 }
    | none =>
      if normalized.data ≠ [] ∧ normalized.data.all Char.isDigit then
        { text := none, pfx := none, number := some (digitsToNat normalized.data) }
      else { text := some normalized, pfx := none, number := none }

/-- JS truthiness of an optional string (parsed.prefix is tested this
way). -/
def optTruthy : Option String → Bool
  | none => false
  | some s => s ≠ ""

/-- The fuzzy text search branch of searchTasks: case-insensitive
substring match over ticket number, ticket key, title, status, assignee
and project, sorted by descending id. -/
def fuzzyFilter (tasks : List StoredTask) (q : String) : List StoredTask :=
  jsSortBy (fun a b : StoredTask => decide (b.id ≤ a.id))
    (tasks.filter (fun task =>
      strIncludes (decRepr task.ticketNumber) q ||
      strIncludes (jsToLower task.ticketKey) q ||
      strIncludes (jsToLower task.title) q ||
      strIncludes (jsToLower task.status) q ||
      strIncludes (jsToLower task.assignee) q ||
      strIncludes (jsToLower task.project) q))

/-- searchTasks(tasks, prefixIndex, query) of src/src/index.js lines
937-973, with the early returns written as option fallthrough. -/
def searchTasks (tasks : List StoredTask) (prefixIndex : List (String × String))
    (query : String) : List StoredTask :=
  if query = "" ∨ jsTrim query = "" then
    jsSortBy (fun a b : StoredTask => decide (b.id ≤ a.id)) tasks
  else
    let parsed := parseSearchQuery query
    let structured : Option (List StoredTask) :=
      match parsed.pfx, parsed.number with
      | some p, some n =>
        if p = "" then none
        else
          match lookupTruthy prefixIndex p with
          | some projectId =>
            let result := tasks.filter (fun t =>
              decide (t.projectId = some projectId) && decide (t.ticketNumber = n))
            if result.isEmpty then none else some result
          | none => none
      | _, _ => none
    match structured with
    | some r => r
    | none =>
      let numberOnly : Option (List StoredTask) :=
        match parsed.number with
        | some n =>
          if optTruthy parsed.pfx then none
          else
            let exactMatch := tasks.filter (fun t => decide (t.ticketNumber = n))
            if exactMatch.isEmpty then none else some exactMatch
        | none => none
      match numberOnly with
      | some r => r
      | none => fuzzyFilter tasks (jsOrS parsed.text (jsToLower query))

/-! ## Browse (handleBrowse) -/

/-- The four response shapes of handleBrowse beside the redirect. -/
inductive BrowseResult where
  | invalidFormat
  | uninitialized
  | unknownPrefix (pfx : String) (known : List String)
  | notFound (pfx : String) (num : String)
  | redirect (url : String)
deriving DecidableEq, Repr

/-- url.pathname.match of the anchored case-insensitive pattern
slash-browse-slash, letters, hyphen, digits: the captured groups in
original case. -/
def parseBrowsePath (path : String) : Option (String × String) :=
  let cs := path.data
  if (cs.take 8).map Char.toLower = "/browse/".data then
    let rest := cs.drop 8
    let letters := rest.takeWhile Char.isAlpha
    if letters.isEmpty then none
    else
      match rest.dropWhile Char.isAlpha with
      | '-' :: ds =>
        if ds.isEmpty then none
        else if ds.all Char.isDigit then some (String.mk letters, String.mk ds)
        else none
      | _ => none
  else none

/-- handleBrowse of src/src/index.js lines 979-1032 (the KV reads become
the two optional arguments; the ticket number comparison is kept as exact
string equality, String(t.ticketNumber) === String(ticketNumber)). -/
def handleBrowse (path : String) (tasksOpt : Option (List StoredTask))
    (prefixIndexOpt : Option (List (String × String))) : BrowseResult :=
  match parseBrowsePath path with
  | none => .invalidFormat
  | some r =>
    match tasksOpt with
    | none => .uninitialized
    | some tasks =>
      let prefixIndex := prefixIndexOpt.getD []
      match lookupTruthy prefixIndex (jsToUpper r.1) with
      | none => .unknownPrefix (jsToUpper r.1) (prefixIndex.map Prod.fst)
      | some projectId =>
        match tasks.find? (fun t =>
          decide (t.projectId = some projectId) && decide (decRepr t.ticketNumber = r.2)) with
        | none => .notFound (jsToUpper r.1) r.2
        | some task => .redirect task.url

end BetterProductive

namespace BetterProductive

/-! ## C7: structured search falls back to fuzzy search -/

theorem matchPrefixNumber_some_ne_empty (s : String) (r : String × Nat)
    (h : matchPrefixNumber s = some r) : r.1 ≠ "" := by
  rw [matchPrefixNumber] at h
  by_cases hl : (s.data.takeWhile Char.isLower).isEmpty = true
  · rw [if_pos hl] at h
    exact Option.noConfusion h
  · rw [if_neg hl] at h
    by_cases hr : ((s.data.dropWhile Char.isLower).dropWhile Char.isWhitespace).isEmpty = true
    · rw [if_pos hr] at h
      exact Option.noConfusion h
    · rw [if_neg hr] at h
      by_cases hd : ((s.data.dropWhile Char.isLower).dropWhile Char.isWhitespace).all
          Char.isDigit = true
      · rw [if_pos hd] at h
        have hreq : r = (String.mk (s.data.takeWhile Char.isLower),
            digitsToNat ((s.data.dropWhile Char.isLower).dropWhile Char.isWhitespace)) :=
          (Option.some.injEq .. ▸ h).symm
        rw [hreq]
        intro hemp
        have := congrArg String.data hemp
        simp only at this
        rw [List.isEmpty_iff] at hl
        exact hl this
      · rw [if_neg hd] at h
        exact Option.noConfusion h

theorem normalizeQuery_of_trim_empty (query : String) (h : jsTrim query = "") :
    normalizeQuery query = "" := by
  rw [normalizeQuery, h]
  rfl

theorem parseSearchQuery_pfx_facts (query p : String) (t : Option String) (n : Option Nat)
    (h : parseSearchQuery query = ⟨t, some p, n⟩) :
    p ≠ "" ∧ query ≠ "" ∧ jsTrim query ≠ "" := by
  by_cases hq : query = ""
  · rw [hq] at h
    rw [parseSearchQuery, if_pos rfl] at h
    exact absurd (congrArg ParsedQuery.pfx h) (by simp)
  · rw [parseSearchQuery, if_neg hq] at h
    rcases hm : matchPrefixNumber (normalizeQuery query) with _ | r
    · exfalso
      simp only [hm] at h
      by_cases hd : (normalizeQuery query).data ≠ [] ∧
          (normalizeQuery query).data.all Char.isDigit
      · rw [if_pos hd] at h
        exact absurd (congrArg ParsedQuery.pfx h) (by simp)
      · rw [if_neg hd] at h
        exact absurd (congrArg ParsedQuery.pfx h) (by simp)
    · simp only [hm] at h
      have hp : p = jsToUpper r.1 := by
        have := congrArg ParsedQuery.pfx h
        simp only at this
        exact (Option.some.injEq .. ▸ this).symm
      have hr1 := matchPrefixNumber_some_ne_empty (normalizeQuery query) r hm
      refine ⟨?_, hq, ?_⟩
      · rw [hp]
        intro hemp
        apply hr1
        have := congrArg String.data hemp
        simp only [jsToUpper] at this
        have hnil := List.map_eq_nil.mp this
        exact String.ext hnil
      · intro htrim
        rw [normalizeQuery_of_trim_empty query htrim] at hm
        rw [show matchPrefixNumber "" = none from rfl] at hm
        exact Option.noConfusion hm

/-- C7: when the normalized query parses as prefix plus number and the
structured lookup yields zero results - the prefix being absent from the
prefix index included - searchTasks returns the fuzzy substring search
over ticket number, ticket key, title, status, assignee and project (on
the lowercased raw query), rather than the empty list. -/
theorem C7_structured_fallthrough (tasks : List StoredTask)
    (prefixIndex : List (String × String)) (query p : String) (n : Nat)
    (hq : parseSearchQuery query = ⟨none, some p, some n⟩)
    (hempty : ∀ pid, lookupTruthy prefixIndex p = some pid →
      tasks.filter (fun t =>
        decide (t.projectId = some pid) && decide (t.ticketNumber = n)) = []) :
    searchTasks tasks prefixIndex query = fuzzyFilter tasks (jsToLower query) := by
  obtain ⟨hp, hq1, hq2⟩ := parseSearchQuery_pfx_facts query p none (some n) hq
  rw [searchTasks, if_neg (by rintro (h | h); exact hq1 h; exact hq2 h)]
  simp only [hq]
  rcases hl : lookupTruthy prefixIndex p with _ | pid
  · simp only [hl, if_neg hp, optTruthy]
    simp [hp, jsOrS]
  · have hf := hempty pid hl
    simp only [hl, if_neg hp, hf, optTruthy]
    simp [hp, jsOrS]

def taskC7 : StoredTask :=
  { id := 9, ticketNumber := 242, title := "Fix login", projectId := some "10",
    project := "Prime", status := "Open", assigneeId := none,
    assignee := "Unassigned", dueDate := none, createdAt := "c", updatedAt := "u",
    url := "https://x/9", projectPrefix := "PRIM", ticketKey := "PRIM-242",
    deleted := false }

theorem C7_witness :
    searchTasks [taskC7] [] "prim242" = fuzzyFilter [taskC7] (jsToLower "prim242") :=
  C7_structured_fallthrough [taskC7] [] "prim242" "PRIM" 242 rfl
    (fun pid h => absurd h (by simp [lookupTruthy, lookupKey]))

end BetterProductive

namespace BetterProductive

/-! ## C10: the browse resolver compares ticket numbers as exact strings -/

theorem char_isLower_iff (c : Char) :
    c.isLower = true ↔ 97 ≤ c.toNat ∧ c.toNat ≤ 122 := by
  simp only [Char.isLower, Bool.and_eq_true, decide_eq_true_eq,
    UInt32.le_def, BitVec.le_def,
    show (UInt32.toBitVec 97).toNat = 97 from rfl,
    show (UInt32.toBitVec 122).toNat = 122 from rfl]
  exact Iff.rfl

theorem isDigit_not_isLower (c : Char) (h : c.isDigit = true) : c.isLower = false := by
  rw [char_isDigit_iff] at h
  rcases Bool.eq_false_or_eq_true c.isLower with hl | hl
  · rw [char_isLower_iff] at hl
    omega
  · exact hl

theorem char_toNat_eq_of_eq {c d : Char} (h : c = d) : c.toNat = d.toNat := by rw [h]

theorem isDigit_not_isWhitespace (c : Char) (h : c.isDigit = true) :
    c.isWhitespace = false := by
  rw [char_isDigit_iff] at h
  rw [Char.isWhitespace]
  have h1 : c ≠ ' ' := fun he => by have := char_toNat_eq_of_eq he; simp at this; omega
  have h2 : c ≠ '\t' := fun he => by have := char_toNat_eq_of_eq he; simp at this; omega
  have h3 : c ≠ '\r' := fun he => by have := char_toNat_eq_of_eq he; simp at this; omega
  have h4 : c ≠ '\n' := fun he => by have := char_toNat_eq_of_eq he; simp at this; omega
  simp [h1, h2, h3, h4]

theorem isDigit_toLower_self (c : Char) (h : c.isDigit = true) : c.toLower = c := by
  rw [char_isDigit_iff] at h
  rw [Char.toLower, if_neg (by omega)]

theorem isDigit_ne_dash (c : Char) (h : c.isDigit = true) : c ≠ '-' ∧ c ≠ '_' := by
  rw [char_isDigit_iff] at h
  constructor
  · intro he
    have := char_toNat_eq_of_eq he
    simp at this
    omega
  · intro he
    have := char_toNat_eq_of_eq he
    simp at this
    omega

theorem map_eq_self_of_forall {α : Type} (f : α → α) :
    ∀ l : List α, (∀ c ∈ l, f c = c) → l.map f = l := by
  intro l
  induction l with
  | nil => intro _; rfl
  | cons c t ih =>
    intro h
    rw [List.map_cons, h c (List.mem_cons_self c t),
      ih (fun x hx => h x (List.mem_cons_of_mem c hx))]

theorem dropWhile_eq_self_of_forall {α : Type} (p : α → Bool) (l : List α)
    (h : ∀ c ∈ l, p c = false) : l.dropWhile p = l := by
  cases l with
  | nil => rfl
  | cons c t =>
    rw [List.dropWhile_cons, h c (List.mem_cons_self c t)]
    simp

theorem jsTrim_eq_self_of_no_ws (s : String)
    (h : ∀ c ∈ s.data, c.isWhitespace = false) : jsTrim s = s := by
  rw [jsTrim]
  rw [dropWhile_eq_self_of_forall _ s.data h]
  rw [dropWhile_eq_self_of_forall _ s.data.reverse
    (fun c hc => h c (List.mem_reverse.mp hc))]
  rw [List.reverse_reverse]

theorem collapseWsGo_eq_self_of_no_ws : ∀ (l : List Char) (b : Bool),
    (∀ c ∈ l, c.isWhitespace = false) → collapseWsGo l b = l := by
  intro l
  induction l with
  | nil => intro b _; rfl
  | cons c t ih =>
    intro b h
    rw [collapseWsGo, h c (List.mem_cons_self c t)]
    simp only [Bool.false_eq_true, if_false]
    rw [ih false (fun x hx => h x (List.mem_cons_of_mem c hx))]

theorem normalizeQuery_all_digits (s : String) (hd : ∀ c ∈ s.data, c.isDigit = true) :
    normalizeQuery s = s := by
  rw [normalizeQuery]
  rw [jsTrim_eq_self_of_no_ws s (fun c hc => isDigit_not_isWhitespace c (hd c hc))]
  rw [map_eq_self_of_forall Char.toLower s.data
    (fun c hc => isDigit_toLower_self c (hd c hc))]
  rw [map_eq_self_of_forall _ s.data (fun c hc => by
    obtain ⟨h1, h2⟩ := isDigit_ne_dash c (hd c hc)
    simp [h1, h2])]
  rw [collapseWsGo_eq_self_of_no_ws s.data false
    (fun c hc => isDigit_not_isWhitespace c (hd c hc))]

theorem parseSearchQuery_all_digits (s : String) (hne : s.data ≠ [])
    (hd : ∀ c ∈ s.data, c.isDigit = true) :
    parseSearchQuery s = { text := none, pfx := none, number := some (digitsToNat s.data) } := by
  have hs : s ≠ "" := by
    intro h
    apply hne
    rw [h]
  rw [parseSearchQuery, if_neg hs, normalizeQuery_all_digits s hd]
  have hmatch : matchPrefixNumber s = none := by
    rw [matchPrefixNumber]
    rcases hl : s.data with _ | ⟨c, t⟩
    · exact absurd hl hne
    · have hclow : c.isLower = false :=
        isDigit_not_isLower c (hd c (by rw [hl]; exact List.mem_cons_self c t))
      rw [List.takeWhile_cons, hclow]
      simp
  simp only [hmatch]
  rw [if_pos ⟨hne, by rw [List.all_eq_true]; intro c hc; exact hd c hc⟩]

/-- C10: the browse resolver matches the ticket number as an exact decimal
string: on any snapshot, a well-formed browse path with prefix and digit
string ds redirects exactly when the prefix resolves through the prefix
index and some task of that project has String(ticketNumber) equal to ds
character for character; a digit string with a leading zero (other than
the string 0 itself) therefore never redirects, even though the search
path parses the same digit string to its integer value. -/
theorem C10_browse_exact_string (tasks : List StoredTask)
    (prefixIndex : List (String × String)) (path pfx ds : String)
    (hp : parseBrowsePath path = some (pfx, ds)) :
    ((∃ u, handleBrowse path (some tasks) (some prefixIndex) = .redirect u) ↔
      ∃ pid, lookupTruthy prefixIndex (jsToUpper pfx) = some pid ∧
        ∃ t ∈ tasks, t.projectId = some pid ∧ decRepr t.ticketNumber = ds) ∧
    (ds.data.head? = some '0' → ds ≠ "0" →
      ∀ u, handleBrowse path (some tasks) (some prefixIndex) ≠ .redirect u) ∧
    (ds.data ≠ [] → (∀ c ∈ ds.data, c.isDigit = true) →
      parseSearchQuery ds =
        { text := none, pfx := none, number := some (digitsToNat ds.data) }) := by
  have hmain : (∃ u, handleBrowse path (some tasks) (some prefixIndex) = .redirect u) ↔
      ∃ pid, lookupTruthy prefixIndex (jsToUpper pfx) = some pid ∧
        ∃ t ∈ tasks, t.projectId = some pid ∧ decRepr t.ticketNumber = ds := by
    rw [handleBrowse]
    simp only [hp, Option.getD]
    rcases hl : lookupTruthy prefixIndex (jsToUpper pfx) with _ | pid
    · simp only [hl]
      constructor
      · rintro ⟨u, hu⟩
        exact absurd hu (by simp)
      · rintro ⟨pid, hpid, _⟩
        exact Option.noConfusion hpid
    · simp only [hl]
      rcases hf : tasks.find? (fun t =>
          decide (t.projectId = some pid) && decide (decRepr t.ticketNumber = ds)) with _ | task
      · simp only [hf]
        constructor
        · rintro ⟨u, hu⟩
          exact absurd hu (by simp)
        · rintro ⟨pid₁, hpid₁, t, ht, hproj, htn⟩
          have hpe : pid = pid₁ := Option.some.injEq .. ▸ hpid₁
          rw [List.find?_eq_none] at hf
          have := hf t ht
          rw [← hpe] at hproj
          simp [hproj, htn] at this
      · simp only [hf]
        constructor
        · rintro ⟨u, _⟩
          have hpt := List.find?_some hf
          have hmem := List.mem_of_find?_eq_some hf
          simp only [Bool.and_eq_true, decide_eq_true_eq] at hpt
          exact ⟨pid, rfl, task, hmem, hpt.1, hpt.2⟩
        · intro _
          exact ⟨task.url, rfl⟩
  refine ⟨hmain, ?_, ?_⟩
  · intro hz hnz u hu
    obtain ⟨pid, _, t, _, _, htn⟩ := hmain.mp ⟨u, hu⟩
    by_cases h0 : t.ticketNumber = 0
    · rw [h0] at htn
      apply hnz
      rw [← htn]
      rfl
    · rcases hh : (decRepr t.ticketNumber).data.head? with _ | c
      · have := decChars_ne_nil (show t.ticketNumber < t.ticketNumber + 1 by omega)
        rcases hdd : (decRepr t.ticketNumber).data with _ | ⟨a, b⟩
        · exact this hdd
        · rw [hdd] at hh
          exact Option.noConfusion hh
      · have hcne := decRepr_head_ne_zero (Nat.pos_of_ne_zero h0) c hh
        rw [htn] at hh
        rw [hz] at hh
        exact hcne (Option.some.injEq .. ▸ hh).symm
  · intro hne hd
    exact parseSearchQuery_all_digits ds hne hd

def taskC10 : StoredTask :=
  { id := 9, ticketNumber := 242, title := "Fix login", projectId := some "10",
    project := "Prime", status := "Open", assigneeId := none,
    assignee := "Unassigned", dueDate := none, createdAt := "c", updatedAt := "u",
    url := "https://x/9", projectPrefix := "PRIM", ticketKey := "PRIM-242",
    deleted := false }

theorem C10_witness :
    handleBrowse "/browse/PRIM-0242" (some [taskC10]) (some [("PRIM", "10")]) ≠
      BrowseResult.redirect "https://x/9" :=
  (C10_browse_exact_string [taskC10] [("PRIM", "10")] "/browse/PRIM-0242" "PRIM" "0242"
    rfl).2.1 rfl (by decide) "https://x/9"

end BetterProductive
